import Mathlib

/-! # get_next_line: a shallow embedding and its properties

The development embeds `get_next_line.c` and `get_next_line_utils_bonus.c`.

Representation choices.

* A byte is a natural number (`0` is NUL, `10` is the newline).
* A `char *` that points to an allocation is a `Buf`: the identity of the
  allocation together with the cells that precede its final terminating NUL.
  Reading a cell at or after the end of the list gives `0`; a `0` that occurs
  inside the list is an embedded NUL, at which every string loop of the source
  stops, exactly as in C.  A NULL pointer is `none`.
* Everything the code can observe or change is gathered in a `World`: what the
  descriptors still have to deliver, the number of `read` calls issued, the
  allocator (which calls fail, how many were issued, what was released), and
  the static variable `buffer` of `get_next_line`.
* `BUFFER_SIZE` is a compile-time constant of the source; it is a parameter
  `B : Int` of the embedded functions.
* A descriptor is modelled by the finite list of the results its `read` calls
  will give (chunks of bytes, end-of-stream, errors); after the list every
  `read` returns 0.  All embedded functions are therefore total.
-/

namespace GetNextLine

/-- A byte of a C string. -/
abbrev Byte := Nat

/-- The newline character. -/
abbrev NL : Byte := 10

/-- What one call of `read(2)` does: it stores `bytes` in the destination and
returns their number (zero bytes is end-of-stream), or it fails and returns `-1`. -/
inductive ReadResult where
  | data (bytes : List Byte)
  | error
deriving DecidableEq, Repr

/-- The value returned by `read`. -/
def ReadResult.ret : ReadResult → Int
  | .data bytes => (bytes.length : Int)
  | .error => -1

/-- The bytes `read` stored in the destination buffer. -/
def ReadResult.stored : ReadResult → List Byte
  | .data bytes => bytes
  | .error => []

/-- A non-NULL `char *` to the start of an allocation. -/
structure Buf where
  id : Nat
  bytes : List Byte
deriving DecidableEq, Repr

/-- The environment and the static state of the program. -/
structure World where
  /-- For each descriptor, the results its next `read` calls will give, in order;
  once the list is used up every `read` returns 0. -/
  files : Int → List ReadResult
  /-- Number of `read` calls issued so far. -/
  reads : Nat
  /-- Whether the n-th call of `malloc` (counted from 0) fails. -/
  oom : Nat → Bool
  /-- Number of `malloc` calls issued so far. -/
  allocs : Nat
  /-- Identities of the allocations passed to `free`, oldest first. -/
  freed : List Nat
  /-- The static variable `buffer` of `get_next_line`. -/
  buffer : Option Buf

/-- The cell `s[i]`, with the terminating NUL past the end. -/
def charAt (s : List Byte) (i : Nat) : Byte := s.getD i 0

/-- The libc call `malloc(size)`: a fresh allocation identity, or NULL when
the allocator fails.  The size plays no part: a `Buf` carries its cells. -/
def malloc (_size : Int) (w : World) : Option Nat × World :=
  if w.oom w.allocs then (none, { w with allocs := w.allocs + 1 })
  else (some w.allocs, { w with allocs := w.allocs + 1 })

/-- The libc call `free(p)`; `free(NULL)` does nothing. -/
def free (p : Option Buf) (w : World) : World :=
  match p with
  | none => w
  | some b => { w with freed := w.freed ++ [b.id] }

/-- The system call `read(fd, buffer, count)`: the next result the descriptor
has to give, end-of-stream when it has none left.  That a result holds at most
`count` bytes is a property of the environment (see `Chunked`). -/
def sys_read (fd : Int) (_count : Int) (w : World) : ReadResult × World :=
  match w.files fd with
  | [] => (.data [], { w with reads := w.reads + 1 })
  | r :: rest => (r, { w with files := Function.update w.files fd rest, reads := w.reads + 1 })

/-- The conversion `(char)c` of an `int`, as the byte it denotes. -/
def toChar (c : Int) : Byte := (c % 256).toNat

/-- `ft_strchr(s, c)`: the offset from `s` of the returned pointer, or NULL. -/
def ft_strchr : List Byte → Int → Option Nat
  | [], c => if toChar c = 0 then some 0 else none
  | b :: s, c =>
    if b ≠ 0 then
      if b = toChar c then some 0 else (ft_strchr s c).map (· + 1)
    else
      if toChar c = 0 then some 0 else none

/-- The loop `while (s[size]) size++` of `ft_strlen`. -/
def strlen_loop : List Byte → Nat
  | [] => 0
  | b :: s => if b ≠ 0 then strlen_loop s + 1 else 0

/-- `ft_strlen(s)`. -/
def ft_strlen (s : List Byte) : Nat :=
  if charAt s 0 = 0 then 0 else strlen_loop s

/-- `ft_strjoin(s1, s2)`. -/
def ft_strjoin (s1 s2 : Option Buf) (w : World) : Option Buf × World :=
  match s1, s2 with
  | some a, some b =>
    let size_s1 := ft_strlen a.bytes
    let size_s2 := ft_strlen b.bytes
    match malloc ((size_s1 : Int) + size_s2 + 1) w with
    | (none, w1) => (none, w1)
    | (some p, w1) =>
      (some ⟨p, a.bytes.take size_s1 ++ b.bytes.take size_s2⟩, free (some a) w1)
  | _, _ => (none, w)

/-- `ft_create_buffer(buff, buffer)`. -/
def ft_create_buffer (buff buffer : Option Buf) (w : World) : Option Buf × World :=
  match ft_strjoin buff buffer w with
  | (none, w1) => (none, free buff w1)
  | (some tempbuff, w1) => (some tempbuff, w1)

/-- The loop `while (buff[i] && buff[i] != '\n') i++` of `extract_line` and
`update_buffer`: the final value of the index. -/
def line_size : List Byte → Nat
  | [] => 0
  | b :: s => if b ≠ 0 ∧ b ≠ NL then line_size s + 1 else 0

/-- The `while` loop of `read_and_store`.  `buffer` is the chunk allocation,
`buff` the accumulated state.  The test `bytes_read > 0` of the loop condition
always holds when it is evaluated (the initial value is 1, and a read that
returns 0 or less leaves the loop by `break`), so only the search for a
newline is left of it.  Each iteration that goes on consumes one result of the
descriptor, so the first argument, which bounds the number of iterations, is
never used up when it exceeds the number of results left
(`read_and_store_loop_fuel`). -/
def read_and_store_loop (B fd : Int) : Nat → Buf → Buf → World → Option Buf × World
  | 0, buffer, buff, w => (some buff, free (some buffer) w)
  | fuel + 1, buffer, buff, w =>
    if (ft_strchr buff.bytes 10).isSome then (some buff, free (some buffer) w)
    else
      match sys_read fd B w with
      | (r, w1) =>
        if r.ret ≤ 0 then (some buff, free (some buffer) w1)
        else
          let chunk : Buf := { buffer with bytes := r.stored.take r.ret.toNat }
          match ft_create_buffer (some buff) (some chunk) w1 with
          | (none, w2) => (none, free (some chunk) w2)
          | (some buff2, w2) => read_and_store_loop B fd fuel chunk buff2 w2

/-- `read_and_store(fd, buff)`. -/
def read_and_store (B fd : Int) (buff : Option Buf) (w : World) : Option Buf × World :=
  let start : Option Buf × World :=
    match buff with
    | some b => (some b, w)
    | none =>
      match malloc 1 w with
      | (none, w1) => (none, w1)
      | (some p, w1) => (some ⟨p, []⟩, w1)
  match start with
  | (none, w1) => (none, w1)
  | (some b, w1) =>
    match malloc (B + 1) w1 with
    | (none, w2) => (none, free (some b) w2)
    | (some p, w2) => read_and_store_loop B fd ((w2.files fd).length + 1) ⟨p, []⟩ b w2

/-- `extract_line(buff)`. -/
def extract_line (buff : Option Buf) (w : World) : Option Buf × World :=
  match buff with
  | none => (none, w)
  | some b =>
    if charAt b.bytes 0 = 0 then (none, w)
    else
      let n := line_size b.bytes
      match malloc ((n : Int) + 2) w with
      | (none, w1) => (none, w1)
      | (some p, w1) =>
        let copied := b.bytes.take n
        if charAt b.bytes n = NL then (some ⟨p, copied ++ [NL]⟩, w1)
        else (some ⟨p, copied⟩, w1)

/-- The loop `while (buff[i]) buffer[j++] = buff[i++]` of `update_buffer`:
the cells copied, starting at cell `i`. -/
def copy_rest (s : List Byte) (i : Nat) : List Byte :=
  (s.drop i).take (strlen_loop (s.drop i))

/-- `update_buffer(buff)`; the source dereferences `buff`, so it is not NULL. -/
def update_buffer (buff : Buf) (w : World) : Option Buf × World :=
  let i := line_size buff.bytes
  if charAt buff.bytes i = 0 then (none, free (some buff) w)
  else
    match malloc ((ft_strlen buff.bytes : Int) - i + 1) w with
    | (none, w1) => (none, free (some buff) w1)
    | (some p, w1) => (some ⟨p, copy_rest buff.bytes (i + 1)⟩, free (some buff) w1)

/-- `get_next_line(fd)`, with `BUFFER_SIZE = B`. -/
def get_next_line (B fd : Int) (w : World) : Option Buf × World :=
  if fd < 0 ∨ B ≤ 0 then (none, w)
  else
    match read_and_store B fd w.buffer w with
    | (none, w1) => (none, { w1 with buffer := none })
    | (some b, w1) =>
      match extract_line (some b) { w1 with buffer := some b } with
      | (line, w2) =>
        match update_buffer b w2 with
        | (rest, w3) => (line, { w3 with buffer := rest })

/-- The results of `n` successive calls of `get_next_line` on `fd`, and the
world they leave. -/
def calls (B fd : Int) : Nat → World → List (Option Buf) × World
  | 0, w => ([], w)
  | n + 1, w =>
    match get_next_line B fd w with
    | (line, w1) =>
      match calls B fd n w1 with
      | (lines, w2) => (line :: lines, w2)

/-- The bytes of a result, `none` for no-result. -/
def content (r : Option Buf) : Option (List Byte) := r.map Buf.bytes

/-- The bytes of the lines returned by `n` successive calls. -/
def results (B fd : Int) (n : Nat) (w : World) : List (Option (List Byte)) :=
  (calls B fd n w).1.map content

/-- The lines of a call sequence that precede its first no-result. -/
def linesBeforeNone : List (Option (List Byte)) → List (List Byte)
  | [] => []
  | none :: _ => []
  | some l :: rs => l :: linesBeforeNone rs

/-- A world in which nothing has happened yet: descriptor `fd` will deliver
`script`, every allocation succeeds, the static buffer is NULL. -/
def freshWorld (fd : Int) (script : List ReadResult) : World :=
  { files := fun d => if d = fd then script else []
    reads := 0
    oom := fun _ => false
    allocs := 0
    freed := []
    buffer := none }

/-- The reference split of a byte sequence: cut immediately after each
newline; the last piece is the unterminated tail when there is one. -/
def refSplit : List Byte → List (List Byte)
  | [] => []
  | b :: bs =>
    if b = NL then [b] :: refSplit bs
    else
      match refSplit bs with
      | [] => [[b]]
      | l :: ls => (b :: l) :: ls

/-- The first line of a byte sequence: everything up to and including the
first newline, or the whole sequence when it has no newline. -/
def firstLine (s : List Byte) : List Byte := s.take (s.indexOf NL + 1)

/-- What follows the first line of a byte sequence. -/
def afterFirstLine (s : List Byte) : List Byte := s.drop (s.indexOf NL + 1)

/-- The bytes that follow the last newline of a byte sequence (all of it when
it has no newline). -/
def afterLastNewline (s : List Byte) : List Byte :=
  ((s.reverse).takeWhile (fun b => b ≠ NL)).reverse

/-- Every allocation succeeds. -/
def NoOOM (w : World) : Prop := ∀ n, w.oom n = false

/-- The bytes of the static buffer, none when it is NULL. -/
def stateBytes (w : World) : List Byte :=
  match w.buffer with
  | none => []
  | some b => b.bytes

/-- The state descriptor `fd` is in between two calls when everything goes
well: allocations succeed, the static buffer is NUL-free, and the descriptor
hands out non-empty NUL-free pieces and then end-of-stream; `pending` is what
the caller has not been given yet, the buffered bytes followed by the bytes
still to be read. -/
def Ready (fd : Int) (w : World) (pending : List Byte) : Prop :=
  NoOOM w ∧ 0 ∉ stateBytes w ∧
    ∃ pieces : List (List Byte), w.files fd = pieces.map ReadResult.data ∧
      (∀ p ∈ pieces, p ≠ [] ∧ 0 ∉ p) ∧ stateBytes w ++ pieces.flatten = pending

/-- The pieces are a way for `read` to hand out `c` with chunk size `B`: they
make up `c` in order, and each is non-empty and of at most `B` bytes. -/
def Chunked (B : Int) (pieces : List (List Byte)) (c : List Byte) : Prop :=
  pieces.flatten = c ∧ ∀ p ∈ pieces, p ≠ [] ∧ (p.length : Int) ≤ B

/-- The world in which descriptor `fd` has `script` left to deliver and
everything else is as in `w`. -/
def withScript (w : World) (fd : Int) (script : List ReadResult) : World :=
  { w with files := Function.update w.files fd script }

/-- Two lists of read results that are equal, or differ in one place only,
where the first has a failing read and the second a read that returns 0. -/
def ErrorForEof (s s0 : List ReadResult) : Prop :=
  s = s0 ∨ ∃ pre post, s = pre ++ ReadResult.error :: post ∧ s0 = pre ++ ReadResult.data [] :: post

/-- The world after one call on a descriptor that delivered "ab\ncd" in one
read and fails from then on: the bytes "cd" are buffered. -/
def leftoverWorld : World :=
  (get_next_line 10 3 (freshWorld 3 [.data [97, 98, 10, 99, 100], .error, .error])).2

/-- The world before the first call on a descriptor that delivers "a\nb\nc"
in one read of at most 10 bytes. -/
def twoLinesWorld : World := freshWorld 3 [.data [97, 10, 98, 10, 99]]

/-- The state between two calls in which the leftover holds no newline:
allocations succeed, the static buffer is NUL-free and newline-free, and the
descriptor hands out non-empty NUL-free chunks that hold at most one newline
each, then end-of-stream. -/
def LeftoverClean (fd : Int) (w : World) : Prop :=
  NoOOM w ∧ 0 ∉ stateBytes w ∧ NL ∉ stateBytes w ∧
    ∃ pieces : List (List Byte), w.files fd = pieces.map ReadResult.data ∧
      ∀ p ∈ pieces, p ≠ [] ∧ 0 ∉ p ∧ p.count NL ≤ 1

/-- Two open descriptors on which nothing has happened yet: descriptor 3
holds "ab\ncd", descriptor 4 holds "xy\n"; every allocation succeeds. -/
def twoDescriptors : World :=
  { files := fun d =>
      if d = 3 then [.data [97, 98, 10, 99, 100]]
      else if d = 4 then [.data [120, 121, 10]] else []
    reads := 0
    oom := fun _ => false
    allocs := 0
    freed := []
    buffer := none }

/-- The world before the first call on a descriptor that delivers "ab\ncd" in
one read, in which the fifth allocation (number 4 from 0) fails: with an
absent state that is the allocation made by `update_buffer`. -/
def failingRebuildWorld : World :=
  { freshWorld 3 [.data [97, 98, 10, 99, 100]] with oom := fun n => n == 4 }

/-- The C string held by a run of cells: the bytes before the first NUL. -/
def cstr (s : List Byte) : List Byte := s.takeWhile (fun b => b != 0)

/-- From `w` to `w2` the allocator behaves the same and every allocation
issued in between succeeded. -/
def AllocsSucceeded (w w2 : World) : Prop :=
  w2.oom = w.oom ∧ w.allocs ≤ w2.allocs ∧ ∀ n, w.allocs ≤ n → n < w2.allocs → w.oom n = false

/-! ## The string helpers on NUL-free cells -/

theorem strlen_loop_nulfree (s : List Byte) (h : 0 ∉ s) : strlen_loop s = s.length := by
  induction s with
  | nil => rfl
  | cons b s ih =>
    simp only [List.mem_cons, not_or] at h
    have hb : b ≠ 0 := fun e => h.1 e.symm
    simp [strlen_loop, hb, ih h.2]

theorem ft_strlen_nulfree (s : List Byte) (h : 0 ∉ s) : ft_strlen s = s.length := by
  cases s with
  | nil => simp [ft_strlen, charAt]
  | cons b s =>
    have hb : b ≠ 0 := fun e => h (by simp [e])
    simp only [ft_strlen, charAt, List.getD_cons_zero, hb, if_false]
    exact strlen_loop_nulfree _ h

theorem toChar_nl : toChar 10 = 10 := by decide

theorem ft_strchr_nl (s : List Byte) (h : 0 ∉ s) :
    (ft_strchr s 10).isSome = true ↔ NL ∈ s := by
  induction s with
  | nil => simp [ft_strchr, toChar_nl]
  | cons b s ih =>
    simp only [List.mem_cons, not_or] at h
    have hb : b ≠ 0 := fun e => h.1 e.symm
    by_cases hnl : b = 10
    · simp [ft_strchr, toChar_nl, hnl, NL]
    · have hnl2 : ¬ (NL = b) := fun e => hnl e.symm
      simp [ft_strchr, toChar_nl, hb, hnl, hnl2, ih h.2]

theorem line_size_nulfree (s : List Byte) (h : 0 ∉ s) : line_size s = s.indexOf NL := by
  induction s with
  | nil => rfl
  | cons b s ih =>
    simp only [List.mem_cons, not_or] at h
    have hb : b ≠ 0 := fun e => h.1 e.symm
    by_cases hnl : b = NL
    · simp [line_size, hnl]
    · simp [line_size, hb, hnl, ih h.2, List.indexOf_cons_ne _ hnl]

theorem charAt_indexOf_mem (s : List Byte) (h : NL ∈ s) : charAt s (s.indexOf NL) = NL := by
  induction s with
  | nil => simp at h
  | cons b s ih =>
    by_cases hnl : b = NL
    · simp [charAt, hnl]
    · have hs : NL ∈ s := by
        rcases List.mem_cons.1 h with e | e
        · exact absurd e.symm hnl
        · exact e
      have := ih hs
      simp only [charAt] at this ⊢
      simpa [List.indexOf_cons_ne _ hnl] using this

theorem charAt_indexOf_not_mem (s : List Byte) (h : NL ∉ s) : charAt s (s.indexOf NL) = 0 := by
  have : s.indexOf NL = s.length := List.indexOf_eq_length.2 h
  simp [charAt, this]

theorem copy_rest_nulfree (s : List Byte) (i : Nat) (h : 0 ∉ s) : copy_rest s i = s.drop i := by
  have hd : 0 ∉ s.drop i := fun hm => h (List.mem_of_mem_drop hm)
  simp [copy_rest, strlen_loop_nulfree _ hd]

theorem take_indexOf_append (s : List Byte) (h : NL ∈ s) :
    s.take (s.indexOf NL) ++ [NL] = s.take (s.indexOf NL + 1) := by
  induction s with
  | nil => simp at h
  | cons b s ih =>
    by_cases hnl : b = NL
    · simp [hnl]
    · have hs : NL ∈ s := by
        rcases List.mem_cons.1 h with e | e
        · exact absurd e.symm hnl
        · exact e
      simp [List.indexOf_cons_ne _ hnl, ih hs]

/-! ## The building blocks when allocation succeeds -/

theorem malloc_ok (sz : Int) (w : World) (h : w.oom w.allocs = false) :
    malloc sz w = (some w.allocs, { w with allocs := w.allocs + 1 }) := by
  simp [malloc, h]

theorem extract_line_spec (b : Buf) (w : World) (h0 : 0 ∉ b.bytes) (hne : b.bytes ≠ [])
    (hm : w.oom w.allocs = false) :
    extract_line (some b) w
      = (some ⟨w.allocs, firstLine b.bytes⟩, { w with allocs := w.allocs + 1 }) := by
  have hc : charAt b.bytes 0 ≠ 0 := by
    cases hb : b.bytes with
    | nil => exact absurd hb hne
    | cons x xs =>
      have : x ≠ 0 := fun e => h0 (by simp [hb, e])
      simpa [charAt] using this
  simp only [extract_line, hc, if_false, malloc_ok _ w hm, line_size_nulfree _ h0]
  by_cases hnl : NL ∈ b.bytes
  · simp only [charAt_indexOf_mem _ hnl, if_true, take_indexOf_append _ hnl, firstLine]
  · have hz : charAt b.bytes (List.indexOf NL b.bytes) ≠ NL := by
      rw [charAt_indexOf_not_mem _ hnl]; decide
    have hl : List.indexOf NL b.bytes = b.bytes.length := List.indexOf_eq_length.2 hnl
    simp only [hz, if_false, firstLine]
    simp [hl]

theorem update_buffer_found (b : Buf) (w : World) (h0 : 0 ∉ b.bytes) (hnl : NL ∈ b.bytes)
    (hm : w.oom w.allocs = false) :
    update_buffer b w
      = (some ⟨w.allocs, afterFirstLine b.bytes⟩,
          free (some b) { w with allocs := w.allocs + 1 }) := by
  have hc : charAt b.bytes (List.indexOf NL b.bytes) ≠ 0 := by
    rw [charAt_indexOf_mem _ hnl]; decide
  simp only [update_buffer, line_size_nulfree _ h0, hc, if_false, malloc_ok _ w hm,
    copy_rest_nulfree _ _ h0, afterFirstLine]

theorem update_buffer_not_found (b : Buf) (w : World) (h0 : 0 ∉ b.bytes) (hnl : NL ∉ b.bytes) :
    update_buffer b w = (none, free (some b) w) := by
  simp only [update_buffer, line_size_nulfree _ h0, charAt_indexOf_not_mem _ hnl, if_true]

theorem ft_create_buffer_spec (a c : Buf) (w : World) (ha : 0 ∉ a.bytes) (hc : 0 ∉ c.bytes)
    (hm : w.oom w.allocs = false) :
    ft_create_buffer (some a) (some c) w
      = (some ⟨w.allocs, a.bytes ++ c.bytes⟩,
          free (some a) { w with allocs := w.allocs + 1 }) := by
  simp [ft_create_buffer, ft_strjoin, malloc_ok _ w hm, ft_strlen_nulfree _ ha,
    ft_strlen_nulfree _ hc]

/-! ## The iteration bound of the top-up loop is never reached -/

theorem ft_create_buffer_keeps_files (a c : Option Buf) (w : World) :
    (ft_create_buffer a c w).2.files = w.files := by
  cases a with
  | none => cases c <;> rfl
  | some a =>
    cases c with
    | none => rfl
    | some c =>
      simp only [ft_create_buffer, ft_strjoin, malloc]
      by_cases h : w.oom w.allocs = true <;> simp [h, free]

/-- Any two bounds larger than the number of results the descriptor has left
give the same run of the loop: the bound does not cut the loop short. -/
theorem read_and_store_loop_fuel (B fd : Int) :
    ∀ (f1 f2 : Nat) (buffer buff : Buf) (w : World),
      (w.files fd).length < f1 → (w.files fd).length < f2 →
      read_and_store_loop B fd f1 buffer buff w = read_and_store_loop B fd f2 buffer buff w := by
  intro f1
  induction f1 with
  | zero => intro f2 buffer buff w h1 _; exact absurd h1 (Nat.not_lt_zero _)
  | succ f1 ih =>
    intro f2 buffer buff w h1 h2
    obtain ⟨g, rfl⟩ : ∃ g, f2 = g + 1 := ⟨f2 - 1, by omega⟩
    by_cases hs : (ft_strchr buff.bytes 10).isSome = true
    · simp [read_and_store_loop, hs]
    · cases hf : w.files fd with
      | nil => simp [read_and_store_loop, hs, sys_read, hf, ReadResult.ret]
      | cons r rest =>
        simp only [read_and_store_loop, hs, sys_read, hf]
        by_cases hret : r.ret ≤ 0
        · simp [hret]
        · simp only [hret, Bool.false_eq_true, if_false]
          have hkeep := ft_create_buffer_keeps_files (some buff)
            (some ⟨buffer.id, r.stored.take r.ret.toNat⟩)
            { w with files := Function.update w.files fd rest, reads := w.reads + 1 }
          generalize ft_create_buffer (some buff) (some ⟨buffer.id, r.stored.take r.ret.toNat⟩)
            { w with files := Function.update w.files fd rest, reads := w.reads + 1 } = m at hkeep
          obtain ⟨_ | buff2, w2⟩ := m
          · rfl
          · have hlen : (w2.files fd).length = rest.length := by
              simp only at hkeep
              rw [hkeep]; simp
            rw [hf] at h1 h2
            simp only [List.length_cons] at h1 h2
            exact ih g _ buff2 w2 (by omega) (by omega)

/-! ## The top-up loop -/

theorem loop_spec (B fd : Int) (rest : List ReadResult)
    (hrest : ∀ r, rest.head? = some r → r.ret ≤ 0) :
    ∀ (pieces : List (List Byte)) (fuel : Nat) (buffer buff : Buf) (w : World),
      NoOOM w → w.files fd = pieces.map ReadResult.data ++ rest →
      (∀ p ∈ pieces, p ≠ [] ∧ 0 ∉ p) → 0 ∉ buff.bytes → pieces.length < fuel →
      ∃ (k : Nat) (id : Nat) (w2 : World), k ≤ pieces.length ∧
        read_and_store_loop B fd fuel buffer buff w
          = (some ⟨id, buff.bytes ++ (pieces.take k).flatten⟩, w2) ∧
        w2.oom = w.oom ∧ w2.buffer = w.buffer ∧
        (∀ d, d ≠ fd → w2.files d = w.files d) ∧
        (∀ j, j < k → NL ∉ buff.bytes ++ (pieces.take j).flatten) ∧
        ((NL ∈ buff.bytes ++ (pieces.take k).flatten ∧
            w2.files fd = (pieces.drop k).map ReadResult.data ++ rest ∧
            w2.reads = w.reads + k) ∨
         (NL ∉ buff.bytes ++ (pieces.take k).flatten ∧ k = pieces.length ∧
            w2.files fd = rest.tail ∧ w2.reads = w.reads + k + 1)) := by
  intro pieces
  induction pieces with
  | nil =>
    intro fuel buffer buff w hoom hfiles _ h0 hfuel
    obtain ⟨f, rfl⟩ : ∃ f, fuel = f + 1 := ⟨fuel - 1, by simp at hfuel; omega⟩
    by_cases hnl : NL ∈ buff.bytes
    · refine ⟨0, buff.id, free (some buffer) w, le_refl _, ?_, rfl, rfl, fun _ _ => rfl, ?_, ?_⟩
      · simp [read_and_store_loop, (ft_strchr_nl _ h0).2 hnl]
      · intro j hj; exact absurd hj (Nat.not_lt_zero _)
      · left; simpa [free, hnl] using hfiles
    · have hs : (ft_strchr buff.bytes 10).isSome = false := by
        cases hh : (ft_strchr buff.bytes 10).isSome with
        | false => rfl
        | true => exact absurd ((ft_strchr_nl _ h0).1 hh) hnl
      simp only [List.map_nil, List.nil_append] at hfiles
      cases hr : rest with
      | nil =>
        refine ⟨0, buff.id, free (some buffer) { w with reads := w.reads + 1 }, le_refl _, ?_,
          rfl, rfl, fun _ _ => rfl, ?_, ?_⟩
        · simp [read_and_store_loop, hs, sys_read, hfiles, hr, ReadResult.ret]
        · intro j hj; exact absurd hj (Nat.not_lt_zero _)
        · right; simp [free, hnl, hfiles, hr]
      | cons r rs =>
        have hret : r.ret ≤ 0 := hrest r (by simp [hr])
        refine ⟨0, buff.id, free (some buffer)
          { w with files := Function.update w.files fd rs, reads := w.reads + 1 }, le_refl _, ?_,
          rfl, rfl, ?_, ?_, ?_⟩
        · simp [read_and_store_loop, hs, sys_read, hfiles, hr, hret]
        · intro d hd; simp [free, Function.update_noteq hd]
        · intro j hj; exact absurd hj (Nat.not_lt_zero _)
        · right; simp [free, hnl]
  | cons p ps ih =>
    intro fuel buffer buff w hoom hfiles hpieces h0 hfuel
    obtain ⟨f, rfl⟩ : ∃ f, fuel = f + 1 := ⟨fuel - 1, by simp at hfuel; omega⟩
    by_cases hnl : NL ∈ buff.bytes
    · refine ⟨0, buff.id, free (some buffer) w, Nat.zero_le _, ?_, rfl, rfl, fun _ _ => rfl, ?_, ?_⟩
      · simp [read_and_store_loop, (ft_strchr_nl _ h0).2 hnl]
      · intro j hj; exact absurd hj (Nat.not_lt_zero _)
      · left; simpa [free, hnl] using hfiles
    · have hs : (ft_strchr buff.bytes 10).isSome = false := by
        cases hh : (ft_strchr buff.bytes 10).isSome with
        | false => rfl
        | true => exact absurd ((ft_strchr_nl _ h0).1 hh) hnl
      have hp := hpieces p (List.mem_cons_self _ _)
      have hplen : 0 < p.length := List.length_pos.2 hp.1
      have hret : ¬ ((p.length : Int) ≤ 0) := by omega
      let w1 : World := { w with files := Function.update w.files fd (ps.map ReadResult.data ++ rest),
                                 reads := w.reads + 1 }
      let chunk : Buf := ⟨buffer.id, p⟩
      let w2 : World := free (some buff) { w1 with allocs := w1.allocs + 1 }
      have hstep : read_and_store_loop B fd (f + 1) buffer buff w
          = read_and_store_loop B fd f chunk ⟨w.allocs, buff.bytes ++ p⟩ w2 := by
        have hcb := ft_create_buffer_spec buff chunk w1 h0 hp.2 (hoom _)
        simp only [List.map_cons, List.cons_append] at hfiles
        simp only [read_and_store_loop, hs, sys_read, hfiles, ReadResult.ret, hret,
          ReadResult.stored, Int.toNat_ofNat, List.take_length]
        simp only [Bool.false_eq_true, if_false]
        rw [hcb]
      have hoom2 : NoOOM w2 := fun n => hoom n
      have hfiles2 : w2.files fd = ps.map ReadResult.data ++ rest := by
        simp [w2, w1, free]
      have h02 : 0 ∉ (⟨w.allocs, buff.bytes ++ p⟩ : Buf).bytes := by
        simp only [List.mem_append, not_or]; exact ⟨h0, hp.2⟩
      obtain ⟨k, id, w3, hk, hrun, ho, hb, hother, hmin, hfin⟩ :=
        ih f chunk ⟨w.allocs, buff.bytes ++ p⟩ w2 hoom2 hfiles2
          (fun q hq => hpieces q (List.mem_cons_of_mem _ hq)) h02
          (by simp at hfuel; omega)
      refine ⟨k + 1, id, w3, by simpa using hk, ?_, ?_, ?_, ?_, ?_, ?_⟩
      · rw [hstep, hrun]; simp
      · rw [ho]; rfl
      · rw [hb]; rfl
      · intro d hd; rw [hother d hd]; simp [w2, w1, free, Function.update_noteq hd]
      · intro j hj
        cases j with
        | zero => simpa using hnl
        | succ j =>
          have := hmin j (by omega)
          simpa using this
      · rcases hfin with ⟨h1, h2, h3⟩ | ⟨h1, h2, h3, h4⟩
        · left
          refine ⟨by simpa using h1, by simpa using h2, ?_⟩
          rw [h3]; simp [w2, w1, free]; omega
        · right
          refine ⟨by simpa using h1, by simp [h2], h3, ?_⟩
          rw [h4]; simp [w2, w1, free]; omega

theorem read_and_store_spec (B fd : Int) (rest : List ReadResult)
    (hrest : ∀ r, rest.head? = some r → r.ret ≤ 0)
    (pieces : List (List Byte)) (buff : Option Buf) (w : World)
    (hoom : NoOOM w) (hfiles : w.files fd = pieces.map ReadResult.data ++ rest)
    (hpieces : ∀ p ∈ pieces, p ≠ [] ∧ 0 ∉ p) (h0 : ∀ b, buff = some b → 0 ∉ b.bytes) :
    ∃ (k : Nat) (id : Nat) (w2 : World), k ≤ pieces.length ∧
      read_and_store B fd buff w
        = (some ⟨id, (content buff).getD [] ++ (pieces.take k).flatten⟩, w2) ∧
      w2.oom = w.oom ∧ w2.buffer = w.buffer ∧
      (∀ d, d ≠ fd → w2.files d = w.files d) ∧
      (∀ j, j < k → NL ∉ (content buff).getD [] ++ (pieces.take j).flatten) ∧
      ((NL ∈ (content buff).getD [] ++ (pieces.take k).flatten ∧
          w2.files fd = (pieces.drop k).map ReadResult.data ++ rest ∧
          w2.reads = w.reads + k) ∨
       (NL ∉ (content buff).getD [] ++ (pieces.take k).flatten ∧ k = pieces.length ∧
          w2.files fd = rest.tail ∧ w2.reads = w.reads + k + 1)) := by
  cases buff with
  | none =>
    let w1 : World := { w with allocs := w.allocs + 1 }
    let w2 : World := { w1 with allocs := w1.allocs + 1 }
    have hrun : read_and_store B fd none w
        = read_and_store_loop B fd ((w2.files fd).length + 1) ⟨w1.allocs, []⟩ ⟨w.allocs, []⟩ w2 := by
      simp only [read_and_store, malloc_ok _ w (hoom _), malloc_ok _ w1 (hoom _)]
    have hlen : pieces.length < (w2.files fd).length + 1 := by
      have : w2.files fd = pieces.map ReadResult.data ++ rest := hfiles
      rw [this]; simp; omega
    obtain ⟨k, id, w3, hk, hloop, ho, hb, hother, hmin, hfin⟩ :=
      loop_spec B fd rest hrest pieces _ ⟨w1.allocs, []⟩ ⟨w.allocs, []⟩ w2
        (fun n => hoom n) hfiles hpieces (by simp) hlen
    exact ⟨k, id, w3, hk, by rw [hrun, hloop]; rfl, ho, hb, hother, hmin, hfin⟩
  | some b =>
    let w2 : World := { w with allocs := w.allocs + 1 }
    have hrun : read_and_store B fd (some b) w
        = read_and_store_loop B fd ((w2.files fd).length + 1) ⟨w.allocs, []⟩ b w2 := by
      simp only [read_and_store, malloc_ok _ w (hoom _)]
    have hlen : pieces.length < (w2.files fd).length + 1 := by
      have : w2.files fd = pieces.map ReadResult.data ++ rest := hfiles
      rw [this]; simp; omega
    obtain ⟨k, id, w3, hk, hloop, ho, hb, hother, hmin, hfin⟩ :=
      loop_spec B fd rest hrest pieces _ ⟨w.allocs, []⟩ b w2
        (fun n => hoom n) hfiles hpieces (h0 b rfl) hlen
    exact ⟨k, id, w3, hk, by rw [hrun, hloop]; rfl, ho, hb, hother, hmin, hfin⟩

/-! ## First line of a byte sequence -/

theorem firstLine_append (a b : List Byte) (h : NL ∈ a) : firstLine (a ++ b) = firstLine a := by
  have hlt : a.indexOf NL < a.length := List.indexOf_lt_length.2 h
  simp only [firstLine, List.indexOf_append_of_mem h]
  rw [List.take_append_of_le_length (by omega)]

theorem afterFirstLine_append (a b : List Byte) (h : NL ∈ a) :
    afterFirstLine (a ++ b) = afterFirstLine a ++ b := by
  have hlt : a.indexOf NL < a.length := List.indexOf_lt_length.2 h
  simp only [afterFirstLine, List.indexOf_append_of_mem h]
  rw [List.drop_append_of_le_length (by omega)]

theorem firstLine_no_newline (a : List Byte) (h : NL ∉ a) : firstLine a = a := by
  simp [firstLine, List.indexOf_eq_length.2 h]

theorem afterFirstLine_no_newline (a : List Byte) (h : NL ∉ a) : afterFirstLine a = [] := by
  simp [afterFirstLine, List.indexOf_eq_length.2 h]

theorem firstLine_append_afterFirstLine (a : List Byte) : firstLine a ++ afterFirstLine a = a := by
  simp [firstLine, afterFirstLine]

theorem firstLine_ne_nil (a : List Byte) (h : a ≠ []) : firstLine a ≠ [] := by
  cases a with
  | nil => exact absurd rfl h
  | cons x xs => simp [firstLine]

/-! ## One call of get_next_line on a well-behaved descriptor -/

theorem stateBytes_eq (w : World) : stateBytes w = (content w.buffer).getD [] := by
  cases h : w.buffer <;> simp [stateBytes, content, h]

/-- One call on a descriptor that hands out `pieces` and then `rest`, whose
first read (if any) returns zero or fails: the call reads `k` pieces, the
fewest that bring a newline into the accumulated bytes, or all of them and
then the stopping read. -/
theorem gnl_call (B fd : Int) (w : World) (pieces : List (List Byte)) (rest : List ReadResult)
    (hfd : 0 ≤ fd) (hB : 0 < B) (hoom : NoOOM w) (h0 : 0 ∉ stateBytes w)
    (hfiles : w.files fd = pieces.map ReadResult.data ++ rest)
    (hpieces : ∀ p ∈ pieces, p ≠ [] ∧ 0 ∉ p)
    (hrest : ∀ r, rest.head? = some r → r.ret ≤ 0) :
    ∃ k : Nat, k ≤ pieces.length ∧
      (∀ j, j < k → NL ∉ stateBytes w ++ (pieces.take j).flatten) ∧
      NoOOM (get_next_line B fd w).2 ∧
      (∀ d, d ≠ fd → (get_next_line B fd w).2.files d = w.files d) ∧
      ((NL ∈ stateBytes w ++ (pieces.take k).flatten ∧
          content (get_next_line B fd w).1
            = some (firstLine (stateBytes w ++ (pieces.take k).flatten)) ∧
          content (get_next_line B fd w).2.buffer
            = some (afterFirstLine (stateBytes w ++ (pieces.take k).flatten)) ∧
          (get_next_line B fd w).2.files fd = (pieces.drop k).map ReadResult.data ++ rest ∧
          (get_next_line B fd w).2.reads = w.reads + k) ∨
       (NL ∉ stateBytes w ++ (pieces.take k).flatten ∧ k = pieces.length ∧
          content (get_next_line B fd w).1
            = (if stateBytes w ++ pieces.flatten = [] then none
               else some (stateBytes w ++ pieces.flatten)) ∧
          (get_next_line B fd w).2.buffer = none ∧
          (get_next_line B fd w).2.files fd = rest.tail ∧
          (get_next_line B fd w).2.reads = w.reads + k + 1)) := by
  have hguard : ¬ (fd < 0 ∨ B ≤ 0) := by omega
  have h0b : ∀ b, w.buffer = some b → 0 ∉ b.bytes := by
    intro b hb; simpa [stateBytes, hb] using h0
  obtain ⟨k, id, w2, hk, hrs, ho, -, hother, hmin, hfin⟩ :=
    read_and_store_spec B fd rest hrest pieces w.buffer w hoom hfiles hpieces h0b
  rw [← stateBytes_eq] at hrs hfin hmin
  have hoom2 : ∀ n, w2.oom n = false := fun n => by rw [ho]; exact hoom n
  have hacc0 : 0 ∉ stateBytes w ++ (pieces.take k).flatten := by
    simp only [List.mem_append, List.mem_flatten, not_or, not_exists, not_and]
    exact ⟨h0, fun l hl => (hpieces l (List.mem_of_mem_take hl)).2⟩
  refine ⟨k, hk, hmin, ?_⟩
  have hall : k = pieces.length → stateBytes w ++ pieces.flatten
      = stateBytes w ++ (pieces.take k).flatten := by
    intro e; rw [e, List.take_length]
  generalize stateBytes w ++ (pieces.take k).flatten = acc at hrs hfin hacc0 hall
  simp only [get_next_line, hguard, if_false, hrs]
  rcases hfin with ⟨hnl, hf, hr⟩ | ⟨hnl, hkl, hf, hr⟩
  · have hne : acc ≠ [] := List.ne_nil_of_mem hnl
    simp only [extract_line_spec, update_buffer_found, hacc0, hnl, hne, hoom2, ne_eq,
      not_false_eq_true]
    refine ⟨fun n => ?_, fun d hd => ?_, Or.inl ⟨by trivial, rfl, rfl, ?_, ?_⟩⟩
    · simpa [free] using hoom2 n
    · simpa [free] using hother d hd
    · simpa [free] using hf
    · simpa [free] using hr
  · simp only [update_buffer_not_found, hacc0, hnl, not_false_eq_true]
    rw [hall hkl]
    by_cases hne : acc = []
    · subst hne
      simp only [extract_line, charAt, List.getD_nil, if_true]
      refine ⟨fun n => ?_, fun d hd => ?_, Or.inr ⟨by simp, hkl, by simp [content], by trivial, ?_, ?_⟩⟩
      · simpa [free] using hoom2 n
      · simpa [free] using hother d hd
      · simpa [free] using hf
      · simpa [free] using hr
    · simp only [extract_line_spec, hacc0, hne, hoom2, ne_eq, not_false_eq_true]
      refine ⟨fun n => ?_, fun d hd => ?_, Or.inr ⟨by trivial, hkl, ?_, by trivial, ?_, ?_⟩⟩
      · simpa [free] using hoom2 n
      · simpa [free] using hother d hd
      · simp [content, hne, firstLine_no_newline _ hnl]
      · simpa [free] using hf
      · simpa [free] using hr

theorem gnl_step (B fd : Int) (w : World) (pending : List Byte) (hfd : 0 ≤ fd) (hB : 0 < B)
    (h : Ready fd w pending) :
    Ready fd (get_next_line B fd w).2 (afterFirstLine pending) ∧
      content (get_next_line B fd w).1
        = (if pending = [] then none else some (firstLine pending)) := by
  obtain ⟨hoom, h0, pieces, hfiles, hpieces, hpend⟩ := h
  obtain ⟨k, -, -, hoom2, -, hfin⟩ :=
    gnl_call B fd w pieces [] hfd hB hoom h0 (by simpa using hfiles) hpieces (by simp)
  have hsplit : pending = (stateBytes w ++ (pieces.take k).flatten) ++ (pieces.drop k).flatten := by
    rw [← hpend, List.append_assoc, ← List.flatten_append, List.take_append_drop]
  have hacc0 : 0 ∉ stateBytes w ++ (pieces.take k).flatten := by
    simp only [List.mem_append, List.mem_flatten, not_or, not_exists, not_and]
    exact ⟨h0, fun l hl => (hpieces l (List.mem_of_mem_take hl)).2⟩
  rcases hfin with ⟨hnl, hline, hbuf, hf, -⟩ | ⟨hnl, hkl, hline, hbuf, hf, -⟩
  · have hpne : pending ≠ [] := by
      rw [hsplit]; exact fun e => List.ne_nil_of_mem hnl (List.append_eq_nil.1 e).1
    have hst : stateBytes (get_next_line B fd w).2
        = afterFirstLine (stateBytes w ++ (pieces.take k).flatten) := by
      rw [stateBytes_eq, hbuf]; rfl
    refine ⟨⟨hoom2, ?_, pieces.drop k, by simpa using hf,
      fun q hq => hpieces q (List.mem_of_mem_drop hq), ?_⟩, ?_⟩
    · rw [hst]; exact fun hm => hacc0 (List.mem_of_mem_drop hm)
    · rw [hst, hsplit, afterFirstLine_append _ _ hnl]
    · rw [if_neg hpne, hline, hsplit, firstLine_append _ _ hnl]
  · rw [hpend] at hline
    have hpa : pending = stateBytes w ++ (pieces.take k).flatten := by
      rw [hsplit, hkl]; simp
    have hst : stateBytes (get_next_line B fd w).2 = [] := by
      rw [stateBytes_eq, hbuf]; rfl
    refine ⟨⟨hoom2, by rw [hst]; simp, [], by simpa using hf, by simp, ?_⟩, ?_⟩
    · rw [hst, hpa, afterFirstLine_no_newline _ hnl]; rfl
    · rw [hline, firstLine_no_newline pending (by rw [hpa]; exact hnl)]

/-! ## Successive calls -/

theorem calls_succ (B fd : Int) (n : Nat) (w : World) :
    calls B fd (n + 1) w
      = ((get_next_line B fd w).1 :: (calls B fd n (get_next_line B fd w).2).1,
          (calls B fd n (get_next_line B fd w).2).2) := rfl

theorem results_succ (B fd : Int) (n : Nat) (w : World) :
    results B fd (n + 1) w
      = content (get_next_line B fd w).1 :: results B fd n (get_next_line B fd w).2 := rfl

theorem refSplit_cons_line (c : List Byte) (h : c ≠ []) :
    refSplit c = firstLine c :: refSplit (afterFirstLine c) := by
  induction c with
  | nil => exact absurd rfl h
  | cons b bs ih =>
    by_cases hb : b = NL
    · subst hb
      simp [refSplit, firstLine, afterFirstLine]
    · have hidx : List.indexOf NL (b :: bs) = List.indexOf NL bs + 1 :=
        List.indexOf_cons_ne _ hb
      have hfl : firstLine (b :: bs) = b :: firstLine bs := by
        simp [firstLine, hidx]
      have hal : afterFirstLine (b :: bs) = afterFirstLine bs := by
        simp [afterFirstLine, hidx]
      cases bs with
      | nil => simp [refSplit, hb, firstLine, afterFirstLine]
      | cons x xs =>
        rw [hfl, hal]
        conv_lhs => rw [refSplit]
        rw [if_neg hb, ih (by simp)]

theorem take_append_replicate {α : Type} (a : α) :
    ∀ (xs : List α) (n m : Nat), n ≤ m →
      (xs ++ List.replicate m a).take n = (xs ++ List.replicate n a).take n := by
  intro xs
  induction xs with
  | nil =>
    intro n m h
    simp [List.take_replicate, Nat.min_eq_left h]
  | cons x xs ih =>
    intro n m h
    cases n with
    | zero => simp
    | succ n =>
      simp only [List.cons_append, List.take_succ_cons]
      rw [ih n m (by omega), ih n (n + 1) (by omega)]

/-- From a state in which `pending` is still owed to the caller, successive
calls return the reference pieces of `pending` in order and then no-result. -/
theorem results_ready (B fd : Int) (hfd : 0 ≤ fd) (hB : 0 < B) :
    ∀ (n : Nat) (w : World) (pending : List Byte), Ready fd w pending →
      results B fd n w = ((refSplit pending).map some ++ List.replicate n none).take n := by
  intro n
  induction n with
  | zero => intro w pending _; rfl
  | succ n ih =>
    intro w pending h
    obtain ⟨hnext, hline⟩ := gnl_step B fd w pending hfd hB h
    rw [results_succ, hline, ih _ _ hnext]
    by_cases hp : pending = []
    · subst hp
      simp [afterFirstLine, refSplit, List.replicate_succ]
    · rw [if_neg hp, refSplit_cons_line pending hp]
      simp only [List.map_cons, List.cons_append, List.take_succ_cons]
      rw [take_append_replicate none _ n (n + 1) (by omega)]

theorem ready_of_chunked (B fd : Int) (w : World) (pieces : List (List Byte)) (c : List Byte)
    (hc : 0 ∉ c) (hch : Chunked B pieces c) (hbuf : w.buffer = none) (hoom : NoOOM w)
    (hfiles : w.files fd = pieces.map ReadResult.data) : Ready fd w c := by
  obtain ⟨hflat, hp⟩ := hch
  refine ⟨hoom, by simp [stateBytes, hbuf], pieces, hfiles, fun p hm => ⟨(hp p hm).1, ?_⟩, ?_⟩
  · intro h0
    exact hc (by rw [← hflat]; exact List.mem_flatten.2 ⟨p, hm, h0⟩)
  · simp [stateBytes, hbuf, hflat]

/-! ## The reference split -/

theorem refSplit_flatten (c : List Byte) : (refSplit c).flatten = c := by
  induction c with
  | nil => rfl
  | cons b bs ih =>
    by_cases hb : b = NL
    · simp [refSplit, hb, ih]
    · rw [refSplit, if_neg hb]
      cases hr : refSplit bs with
      | nil => rw [hr] at ih; simp at ih; simp [← ih]
      | cons l ls => rw [hr] at ih; simp at ih; simp [← ih]

theorem refSplit_length_le (c : List Byte) : (refSplit c).length ≤ c.length := by
  induction c with
  | nil => simp [refSplit]
  | cons b bs ih =>
    by_cases hb : b = NL
    · simp [refSplit, hb, ih]
    · rw [refSplit, if_neg hb]
      cases hr : refSplit bs with
      | nil => simp
      | cons l ls => rw [hr] at ih; simp at ih ⊢; omega

theorem linesBeforeNone_lines (R : List (List Byte)) (m : Nat) :
    linesBeforeNone (R.map some ++ List.replicate m none) = R := by
  induction R with
  | nil => cases m <;> simp [linesBeforeNone, List.replicate_succ]
  | cons l ls ih => simp [linesBeforeNone, ih]

theorem take_lines_append (R : List (List Byte)) (n : Nat) (h : R.length ≤ n) :
    ((R.map some ++ List.replicate n (none : Option (List Byte))).take n)
      = R.map some ++ List.replicate (n - R.length) none := by
  rw [List.take_append_eq_append_take]
  simp [List.take_replicate, List.take_of_length_le, h]

/-! ## The bytes after the last newline -/

theorem takeWhile_append_stop (xs ys : List Byte) :
    (xs ++ NL :: ys).takeWhile (fun b => b ≠ NL) = xs.takeWhile (fun b => b ≠ NL) := by
  induction xs with
  | nil => rfl
  | cons x xs ih =>
    simp only [List.cons_append, List.takeWhile_cons]
    rw [ih]

theorem afterLastNewline_append (a r : List Byte) :
    afterLastNewline (a ++ [NL] ++ r) = afterLastNewline r := by
  simp only [afterLastNewline, List.reverse_append, List.reverse_cons, List.reverse_nil,
    List.nil_append, List.singleton_append]
  rw [takeWhile_append_stop]

theorem afterLastNewline_no_newline (c : List Byte) (h : NL ∉ c) : afterLastNewline c = c := by
  have : (c.reverse).takeWhile (fun b => b ≠ NL) = c.reverse := by
    rw [List.takeWhile_eq_self_iff]
    intro x hx
    have hx2 : x ∈ c := List.mem_reverse.1 hx
    simpa using fun e : x = NL => h (e ▸ hx2)
  unfold afterLastNewline
  rw [this, List.reverse_reverse]

theorem afterLastNewline_ne_nil (c : List Byte) (hne : c ≠ []) (hlast : c.getLast? ≠ some NL) :
    afterLastNewline c ≠ [] := by
  cases h : c.reverse with
  | nil => exact absurd (List.reverse_eq_nil_iff.1 h) hne
  | cons x t =>
    have hc : c = t.reverse ++ [x] := by
      have := congrArg List.reverse h
      simpa using this
    have hx : x ≠ NL := by
      intro e
      apply hlast
      rw [hc, e]; simp
    unfold afterLastNewline
    rw [h, List.takeWhile_cons]
    simp [hx]

theorem afterLastNewline_not_mem (c : List Byte) : NL ∉ afterLastNewline c := by
  intro h
  have h2 : NL ∈ (c.reverse).takeWhile (fun b => b ≠ NL) := by
    simpa [afterLastNewline] using h
  have := List.mem_takeWhile_imp h2
  simp at this

theorem refSplit_last (n : Nat) :
    ∀ c : List Byte, c.length ≤ n → c ≠ [] → c.getLast? ≠ some NL →
      ∃ front : List (List Byte), refSplit c = front ++ [afterLastNewline c] ∧
        ∀ l ∈ front, NL ∈ l := by
  induction n with
  | zero =>
    intro c hlen hne
    exact absurd (List.length_eq_zero.1 (Nat.le_zero.1 hlen)) hne
  | succ n ih =>
    intro c hlen hne hlast
    by_cases hnl : NL ∈ c
    · have hfl : firstLine c = c.take (c.indexOf NL) ++ [NL] := (take_indexOf_append c hnl).symm
      have hc : c = c.take (c.indexOf NL) ++ [NL] ++ afterFirstLine c := by
        rw [← hfl, firstLine_append_afterFirstLine]
      have hrne : afterFirstLine c ≠ [] := by
        intro e
        rw [e, List.append_nil] at hc
        apply hlast
        rw [hc]; simp
      have hrlast : (afterFirstLine c).getLast? ≠ some NL := by
        intro e
        apply hlast
        rw [hc, List.getLast?_append, e]; rfl
      have hrlen : (afterFirstLine c).length ≤ n := by
        have := congrArg List.length hc
        simp only [List.length_append, List.length_singleton] at this
        omega
      obtain ⟨front, hfront, hall⟩ := ih (afterFirstLine c) hrlen hrne hrlast
      refine ⟨firstLine c :: front, ?_, ?_⟩
      · have hal := afterLastNewline_append (c.take (c.indexOf NL)) (afterFirstLine c)
        rw [← hc] at hal
        rw [refSplit_cons_line c hne, hfront, hal]
        rfl
      · intro l hl
        rcases List.mem_cons.1 hl with e | e
        · rw [e, hfl]; simp
        · exact hall l e
    · refine ⟨[], ?_, by simp⟩
      rw [refSplit_cons_line c hne, firstLine_no_newline c hnl, afterFirstLine_no_newline c hnl,
        afterLastNewline_no_newline c hnl]
      rfl

/-! ## Calls that find nothing to return -/

theorem extract_line_nonempty (buff : Option Buf) (w : World) (line : Buf)
    (h : (extract_line buff w).1 = some line) : line.bytes ≠ [] := by
  cases buff with
  | none => simp [extract_line] at h
  | some b =>
    cases hb : b.bytes with
    | nil => simp [extract_line, hb, charAt] at h
    | cons x xs =>
      simp only [extract_line, hb, charAt, List.getD_cons_zero] at h
      by_cases hx0 : x = 0
      · simp [hx0] at h
      · simp only [hx0, if_false] at h
        by_cases hm : w.oom w.allocs = true
        · simp [malloc, hm] at h
        · simp only [malloc, hm] at h
          by_cases hxn : x = NL
          · simp [line_size, hxn] at h
            rw [← h]; simp
          · have hls : line_size (x :: xs) = line_size xs + 1 := by
              simp [line_size, hx0, hxn]
            rw [hls] at h
            simp only [Bool.false_eq_true, if_false, List.take_succ_cons] at h
            split at h
            · simp at h; rw [← h]; simp
            · simp at h; rw [← h]; simp

theorem gnl_result_cases (B fd : Int) (w : World) :
    (get_next_line B fd w).1 = none ∨
      ∃ (buff : Option Buf) (w1 : World), (get_next_line B fd w).1 = (extract_line buff w1).1 := by
  unfold get_next_line
  split
  · exact Or.inl rfl
  · split
    · exact Or.inl rfl
    · exact Or.inr ⟨_, _, rfl⟩

/-- With an absent state, a call whose read returns zero or fails returns
no-result and leaves the state absent, whatever the allocator does. -/
theorem gnl_absent_stop (B fd : Int) (w : World) (hb : w.buffer = none)
    (hr : (sys_read fd B w).1.ret ≤ 0) :
    (get_next_line B fd w).1 = none ∧ (get_next_line B fd w).2.buffer = none ∧
      ((get_next_line B fd w).2.files fd = w.files fd ∨
        (get_next_line B fd w).2.files fd = (w.files fd).tail) := by
  unfold get_next_line
  split
  · exact ⟨rfl, hb, Or.inl rfl⟩
  · rw [hb]
    simp only [read_and_store, malloc]
    by_cases h1 : w.oom w.allocs = true
    · simp [h1]
    · by_cases h2 : w.oom (w.allocs + 1) = true
      · simp [h1, h2, free]
      · cases hf : w.files fd with
        | nil =>
          simp [h1, h2, hf, read_and_store_loop, ft_strchr, toChar, sys_read, ReadResult.ret,
            extract_line, update_buffer, line_size, charAt, free]
        | cons r rest =>
          have hr2 : r.ret ≤ 0 := by simpa [sys_read, hf] using hr
          simp [h1, h2, hf, read_and_store_loop, ft_strchr, toChar, sys_read, hr2,
            extract_line, update_buffer, line_size, charAt, free]

theorem calls_absent_stop (B fd : Int) :
    ∀ (n : Nat) (w : World), w.buffer = none → (∀ r ∈ w.files fd, r.ret ≤ 0) →
      (calls B fd n w).1 = List.replicate n none ∧ (calls B fd n w).2.buffer = none := by
  intro n
  induction n with
  | zero => intro w hb _; exact ⟨rfl, hb⟩
  | succ n ih =>
    intro w hb hs
    have hr : (sys_read fd B w).1.ret ≤ 0 := by
      cases hf : w.files fd with
      | nil => simp [sys_read, hf, ReadResult.ret]
      | cons r rest => simpa [sys_read, hf] using hs r (by simp [hf])
    obtain ⟨h1, h2, h3⟩ := gnl_absent_stop B fd w hb hr
    have hs2 : ∀ r ∈ (get_next_line B fd w).2.files fd, r.ret ≤ 0 := by
      intro r hm
      rcases h3 with e | e
      · exact hs r (e ▸ hm)
      · exact hs r (List.mem_of_mem_tail (e ▸ hm))
    obtain ⟨i1, i2⟩ := ih _ h2 hs2
    rw [calls_succ]
    exact ⟨by simp [h1, i1, List.replicate_succ], i2⟩

/-! ## Worlds that differ only in what the descriptors deliver -/

theorem malloc_files (sz : Int) (w : World) (F : Int → List ReadResult) :
    malloc sz { w with files := F } = ((malloc sz w).1, { (malloc sz w).2 with files := F }) := by
  unfold malloc
  by_cases h : w.oom w.allocs = true <;> simp [h]

theorem free_files (p : Option Buf) (w : World) (F : Int → List ReadResult) :
    free p { w with files := F } = { free p w with files := F } := by
  cases p <;> rfl

theorem ft_create_buffer_files (a c : Option Buf) (w : World) (F : Int → List ReadResult) :
    ft_create_buffer a c { w with files := F }
      = ((ft_create_buffer a c w).1, { (ft_create_buffer a c w).2 with files := F }) := by
  cases a with
  | none => cases c <;> rfl
  | some a =>
    cases c with
    | none => rfl
    | some c =>
      simp only [ft_create_buffer, ft_strjoin, malloc_files]
      generalize malloc _ w = m
      obtain ⟨_ | p, w1⟩ := m <;> rfl

theorem extract_line_files (buff : Option Buf) (w : World) (F : Int → List ReadResult) :
    extract_line buff { w with files := F }
      = ((extract_line buff w).1, { (extract_line buff w).2 with files := F }) := by
  cases buff with
  | none => rfl
  | some b =>
    simp only [extract_line, malloc_files]
    by_cases h0 : charAt b.bytes 0 = 0
    · simp [h0]
    · simp only [h0, if_false]
      generalize malloc _ w = m
      obtain ⟨_ | p, w1⟩ := m
      · rfl
      · by_cases hn : charAt b.bytes (line_size b.bytes) = NL <;> simp [hn]

theorem update_buffer_files (b : Buf) (w : World) (F : Int → List ReadResult) :
    update_buffer b { w with files := F }
      = ((update_buffer b w).1, { (update_buffer b w).2 with files := F }) := by
  simp only [update_buffer, malloc_files]
  by_cases h0 : charAt b.bytes (line_size b.bytes) = 0
  · simp [h0, free]
  · simp only [h0, if_false]
    generalize malloc _ w = m
    obtain ⟨_ | p, w1⟩ := m <;> rfl

theorem errorForEof_length (s s0 : List ReadResult) (h : ErrorForEof s s0) :
    s.length = s0.length := by
  rcases h with e | ⟨pre, post, e1, e2⟩
  · rw [e]
  · rw [e1, e2]; simp

theorem sys_read_sim (B fd : Int) (w : World) (F F0 : Int → List ReadResult)
    (h : ErrorForEof (F fd) (F0 fd)) :
    ∃ (r r0 : ReadResult) (G G0 : Int → List ReadResult),
      sys_read fd B { w with files := F }
        = (r, { w with files := G, reads := w.reads + 1 }) ∧
      sys_read fd B { w with files := F0 }
        = (r0, { w with files := G0, reads := w.reads + 1 }) ∧
      ((r = r0 ∧ ErrorForEof (G fd) (G0 fd)) ∨
        (r = ReadResult.error ∧ r0 = ReadResult.data [])) := by
  rcases h with e | ⟨pre, post, e1, e2⟩
  · cases hF : F fd with
    | nil =>
      refine ⟨.data [], .data [], F, F0, ?_, ?_, Or.inl ⟨rfl, Or.inl e⟩⟩
      · simp [sys_read, hF]
      · simp [sys_read, ← e, hF]
    | cons r rest =>
      refine ⟨r, r, Function.update F fd rest, Function.update F0 fd rest, ?_, ?_,
        Or.inl ⟨rfl, Or.inl (by simp)⟩⟩
      · simp [sys_read, hF]
      · simp [sys_read, ← e, hF]
  · cases pre with
    | nil =>
      refine ⟨.error, .data [], Function.update F fd post, Function.update F0 fd post, ?_, ?_,
        Or.inr ⟨rfl, rfl⟩⟩
      · simp [sys_read, e1]
      · simp [sys_read, e2]
    | cons x pre =>
      refine ⟨x, x, Function.update F fd (pre ++ .error :: post),
        Function.update F0 fd (pre ++ .data [] :: post), ?_, ?_,
        Or.inl ⟨rfl, Or.inr ⟨pre, post, by simp, by simp⟩⟩⟩
      · simp [sys_read, e1]
      · simp [sys_read, e2]

theorem loop_sim (B fd : Int) :
    ∀ (fuel : Nat) (buffer buff : Buf) (w : World) (F F0 : Int → List ReadResult),
      ErrorForEof (F fd) (F0 fd) →
      ∃ (res : Option Buf) (w2 : World) (G G0 : Int → List ReadResult),
        read_and_store_loop B fd fuel buffer buff { w with files := F }
          = (res, { w2 with files := G }) ∧
        read_and_store_loop B fd fuel buffer buff { w with files := F0 }
          = (res, { w2 with files := G0 }) := by
  intro fuel
  induction fuel with
  | zero =>
    intro buffer buff w F F0 _
    exact ⟨some buff, free (some buffer) w, F, F0, rfl, rfl⟩
  | succ fuel ih =>
    intro buffer buff w F F0 h
    by_cases hs : (ft_strchr buff.bytes 10).isSome = true
    · refine ⟨some buff, free (some buffer) w, F, F0, ?_, ?_⟩ <;>
        simp [read_and_store_loop, hs, free]
    · obtain ⟨r, r0, G, G0, e1, e2, hr⟩ := sys_read_sim B fd w F F0 h
      simp only [read_and_store_loop, hs, e1, e2]
      rcases hr with ⟨rfl, hsim⟩ | ⟨rfl, rfl⟩
      · by_cases hret : r.ret ≤ 0
        · refine ⟨some buff, free (some buffer) { w with reads := w.reads + 1 }, G, G0, ?_, ?_⟩ <;>
            simp [hret, free]
        · simp only [hret, Bool.false_eq_true, if_false]
          have hcb := fun H => ft_create_buffer_files (some buff)
            (some ⟨buffer.id, r.stored.take r.ret.toNat⟩) { w with reads := w.reads + 1 } H
          rw [show ({ w with files := G, reads := w.reads + 1 } : World)
              = { ({ w with reads := w.reads + 1 } : World) with files := G } from rfl,
            show ({ w with files := G0, reads := w.reads + 1 } : World)
              = { ({ w with reads := w.reads + 1 } : World) with files := G0 } from rfl,
            hcb G, hcb G0]
          generalize ft_create_buffer _ _ { w with reads := w.reads + 1 } = m
          obtain ⟨_ | buff2, w3⟩ := m
          · exact ⟨none, free (some ⟨buffer.id, r.stored.take r.ret.toNat⟩) w3, G, G0, rfl, rfl⟩
          · exact ih _ buff2 w3 G G0 hsim
      · refine ⟨some buff, free (some buffer) { w with reads := w.reads + 1 }, G, G0, ?_, ?_⟩ <;>
          simp [ReadResult.ret, free]

theorem read_and_store_sim (B fd : Int) (buff : Option Buf) (w : World)
    (F F0 : Int → List ReadResult) (h : ErrorForEof (F fd) (F0 fd)) :
    ∃ (res : Option Buf) (w2 : World) (G G0 : Int → List ReadResult),
      read_and_store B fd buff { w with files := F } = (res, { w2 with files := G }) ∧
      read_and_store B fd buff { w with files := F0 } = (res, { w2 with files := G0 }) := by
  have hlen := errorForEof_length _ _ h
  have hloop : ∀ (b : Buf) (w1 : World),
      ∃ (res : Option Buf) (w2 : World) (G G0 : Int → List ReadResult),
        (match malloc (B + 1) { w1 with files := F } with
          | (none, w2) => (none, free (some b) w2)
          | (some p, w2) =>
            read_and_store_loop B fd ((w2.files fd).length + 1) ⟨p, []⟩ b w2)
          = (res, { w2 with files := G }) ∧
        (match malloc (B + 1) { w1 with files := F0 } with
          | (none, w2) => (none, free (some b) w2)
          | (some p, w2) =>
            read_and_store_loop B fd ((w2.files fd).length + 1) ⟨p, []⟩ b w2)
          = (res, { w2 with files := G0 }) := by
    intro b w1
    simp only [malloc_files]
    generalize malloc (B + 1) w1 = m
    obtain ⟨_ | p, w3⟩ := m
    · exact ⟨none, free (some b) w3, F, F0, rfl, rfl⟩
    · simp only [← hlen]
      exact loop_sim B fd _ ⟨p, []⟩ b w3 F F0 h
  cases buff with
  | some b => exact hloop b w
  | none =>
    simp only [read_and_store, malloc_files]
    generalize hm : malloc 1 w = m
    obtain ⟨_ | p, w1⟩ := m
    · exact ⟨none, w1, F, F0, rfl, rfl⟩
    · exact hloop ⟨p, []⟩ w1

/-- A call on two worlds that differ only in that a failing read of the first
is a read returning 0 in the second gives the same result and worlds that
differ only in what the descriptors still deliver. -/
theorem gnl_sim (B fd : Int) (w : World) (F F0 : Int → List ReadResult)
    (h : ErrorForEof (F fd) (F0 fd)) :
    ∃ (res : Option Buf) (w2 : World) (G G0 : Int → List ReadResult),
      get_next_line B fd { w with files := F } = (res, { w2 with files := G }) ∧
      get_next_line B fd { w with files := F0 } = (res, { w2 with files := G0 }) := by
  by_cases hg : fd < 0 ∨ B ≤ 0
  · exact ⟨none, w, F, F0, by simp [get_next_line, hg], by simp [get_next_line, hg]⟩
  · obtain ⟨res, w2, G, G0, e1, e2⟩ := read_and_store_sim B fd w.buffer w F F0 h
    simp only [get_next_line, hg, if_false, e1, e2]
    cases res with
    | none => exact ⟨none, { w2 with buffer := none }, G, G0, rfl, rfl⟩
    | some b =>
      have hx := fun H => extract_line_files (some b) { w2 with buffer := some b } H
      simp only []
      rw [show ({ ({ w2 with files := G } : World) with buffer := some b } : World)
            = { ({ w2 with buffer := some b } : World) with files := G } from rfl,
          show ({ ({ w2 with files := G0 } : World) with buffer := some b } : World)
            = { ({ w2 with buffer := some b } : World) with files := G0 } from rfl,
          hx G, hx G0]
      generalize extract_line (some b) { w2 with buffer := some b } = m
      obtain ⟨line, w3⟩ := m
      simp only []
      rw [update_buffer_files b w3 G, update_buffer_files b w3 G0]
      generalize update_buffer b w3 = m2
      obtain ⟨rest, w4⟩ := m2
      exact ⟨line, { w4 with buffer := rest }, G, G0, rfl, rfl⟩

/-- A call that reaches a read returning zero or failing, after chunks that
bring no newline: the accumulated bytes are the line, and the state is absent
afterwards. -/
theorem gnl_stop_call (B fd : Int) (w : World) (pieces : List (List Byte))
    (rest : List ReadResult) (hfd : 0 ≤ fd) (hB : 0 < B) (hoom : NoOOM w)
    (h0 : 0 ∉ stateBytes w) (hnl : NL ∉ stateBytes w)
    (hpieces : ∀ p ∈ pieces, p ≠ [] ∧ 0 ∉ p ∧ NL ∉ p)
    (hrest : ∀ r, rest.head? = some r → r.ret ≤ 0)
    (hfiles : w.files fd = pieces.map ReadResult.data ++ rest) :
    content (get_next_line B fd w).1
        = (if stateBytes w ++ pieces.flatten = [] then none
           else some (stateBytes w ++ pieces.flatten)) ∧
      (get_next_line B fd w).2.buffer = none ∧
      (get_next_line B fd w).2.files fd = rest.tail := by
  obtain ⟨k, -, -, -, -, hfin⟩ :=
    gnl_call B fd w pieces rest hfd hB hoom h0 hfiles
      (fun p hp => ⟨(hpieces p hp).1, (hpieces p hp).2.1⟩) hrest
  rcases hfin with ⟨hmem, -⟩ | ⟨-, -, hline, hbuf, hf, -⟩
  · exfalso
    rcases List.mem_append.1 hmem with hm | hm
    · exact hnl hm
    · obtain ⟨l, hl, hx⟩ := List.mem_flatten.1 hm
      exact (hpieces l (List.mem_of_mem_take hl)).2.2 hx
  · exact ⟨hline, hbuf, hf⟩

/-! ## Leftover without a newline -/

theorem afterFirstLine_no_second_newline (s : List Byte) (h : s.count NL ≤ 1) :
    NL ∉ afterFirstLine s := by
  intro hmem
  have hs : NL ∈ s := List.mem_of_mem_drop hmem
  have hfl : NL ∈ firstLine s := by
    rw [firstLine, ← take_indexOf_append s hs]; simp
  have h1 : 0 < (firstLine s).count NL := List.count_pos_iff.2 hfl
  have h2 : 0 < (afterFirstLine s).count NL := List.count_pos_iff.2 hmem
  have h3 : s.count NL = (firstLine s).count NL + (afterFirstLine s).count NL := by
    rw [← List.count_append, firstLine_append_afterFirstLine]
  omega

theorem count_flatten_take_succ (pieces : List (List Byte)) (k : Nat) (hk : k < pieces.length) :
    ((pieces.take (k + 1)).flatten).count NL
      = ((pieces.take k).flatten).count NL + (pieces.get ⟨k, hk⟩).count NL := by
  rw [List.take_succ, List.getElem?_eq_getElem hk]
  simp only [Option.toList, List.flatten_append, List.count_append, List.flatten_cons,
    List.flatten_nil, List.append_nil]
  rfl

theorem leftoverClean_step (B fd : Int) (w : World) (hfd : 0 ≤ fd) (hB : 0 < B)
    (h : LeftoverClean fd w) : LeftoverClean fd (get_next_line B fd w).2 := by
  obtain ⟨hoom, h0, hnl, pieces, hfiles, hpieces⟩ := h
  obtain ⟨k, hk, hmin, hoom2, -, hfin⟩ :=
    gnl_call B fd w pieces [] hfd hB hoom h0 (by simpa using hfiles)
      (fun p hp => ⟨(hpieces p hp).1, (hpieces p hp).2.1⟩) (by simp)
  have hacc0 : 0 ∉ stateBytes w ++ (pieces.take k).flatten := by
    simp only [List.mem_append, List.mem_flatten, not_or, not_exists, not_and]
    exact ⟨h0, fun l hl => (hpieces l (List.mem_of_mem_take hl)).2.1⟩
  rcases hfin with ⟨hmem, -, hbuf, hf, -⟩ | ⟨-, -, -, hbuf, hf, -⟩
  · have hst : stateBytes (get_next_line B fd w).2
        = afterFirstLine (stateBytes w ++ (pieces.take k).flatten) := by
      rw [stateBytes_eq, hbuf]; rfl
    have hcount : (stateBytes w ++ (pieces.take k).flatten).count NL ≤ 1 := by
      cases k with
      | zero => exact absurd (by simpa using hmem) hnl
      | succ k =>
        have hlt : k < pieces.length := by omega
        have hprev := hmin k (Nat.lt_succ_self k)
        have hzero : (stateBytes w ++ (pieces.take k).flatten).count NL = 0 :=
          List.count_eq_zero.2 hprev
        have hp := (hpieces (pieces.get ⟨k, hlt⟩) (List.get_mem _ _ _)).2.2
        rw [List.count_append] at hzero ⊢
        rw [count_flatten_take_succ pieces k hlt]
        omega
    refine ⟨hoom2, ?_, ?_, pieces.drop k, by simpa using hf,
      fun q hq => hpieces q (List.mem_of_mem_drop hq)⟩
    · rw [hst]; exact fun hm => hacc0 (List.mem_of_mem_drop hm)
    · rw [hst]; exact afterFirstLine_no_second_newline _ hcount
  · have hst : stateBytes (get_next_line B fd w).2 = [] := by
      rw [stateBytes_eq, hbuf]; rfl
    exact ⟨hoom2, by rw [hst]; simp, by rw [hst]; simp, [], by simpa using hf, by simp⟩

theorem calls_succ_world (B fd : Int) (n : Nat) (w : World) :
    (calls B fd (n + 1) w).2 = (calls B fd n (get_next_line B fd w).2).2 := rfl

/-! ## Accounting of the bytes read -/

/-- After `n` calls the descriptor has delivered its first `m` chunks, and the
bytes buffered at the start followed by these chunks are the lines returned
followed by the bytes now buffered. -/
theorem accounting (B fd : Int) (hfd : 0 ≤ fd) (hB : 0 < B) :
    ∀ (n : Nat) (w : World) (pieces : List (List Byte)), NoOOM w → 0 ∉ stateBytes w →
      w.files fd = pieces.map ReadResult.data → (∀ p ∈ pieces, p ≠ [] ∧ 0 ∉ p) →
      ∃ m : Nat, m ≤ pieces.length ∧
        (calls B fd n w).2.files fd = (pieces.drop m).map ReadResult.data ∧
        stateBytes w ++ (pieces.take m).flatten
          = ((results B fd n w).map (fun r => r.getD [])).flatten
              ++ stateBytes (calls B fd n w).2 := by
  intro n
  induction n with
  | zero =>
    intro w pieces _ _ hfiles _
    exact ⟨0, Nat.zero_le _, by simpa [calls] using hfiles, by simp [results, calls]⟩
  | succ n ih =>
    intro w pieces hoom h0 hfiles hpieces
    obtain ⟨k, hk, -, hoom2, -, hfin⟩ :=
      gnl_call B fd w pieces [] hfd hB hoom h0 (by simpa using hfiles) hpieces (by simp)
    have hacc0 : 0 ∉ stateBytes w ++ (pieces.take k).flatten := by
      simp only [List.mem_append, List.mem_flatten, not_or, not_exists, not_and]
      exact ⟨h0, fun l hl => (hpieces l (List.mem_of_mem_take hl)).2⟩
    rw [results_succ, calls_succ_world]
    rcases hfin with ⟨-, hline, hbuf, hf, -⟩ | ⟨-, hkl, hline, hbuf, hf, -⟩
    · have hst : stateBytes (get_next_line B fd w).2
          = afterFirstLine (stateBytes w ++ (pieces.take k).flatten) := by
        rw [stateBytes_eq, hbuf]; rfl
      obtain ⟨m, hm, hfiles2, hacc⟩ := ih (get_next_line B fd w).2 (pieces.drop k) hoom2
        (by rw [hst]; exact fun hx => hacc0 (List.mem_of_mem_drop hx))
        (by simpa using hf) (fun q hq => hpieces q (List.mem_of_mem_drop hq))
      refine ⟨k + m, ?_, ?_, ?_⟩
      · simp only [List.length_drop] at hm; omega
      · rw [hfiles2, List.drop_drop, Nat.add_comm]
      · rw [hline, List.map_cons, List.flatten_cons, List.append_assoc, ← hacc, hst]
        simp only [Option.getD_some]
        rw [← List.append_assoc, firstLine_append_afterFirstLine, List.append_assoc,
          ← List.flatten_append]
        congr 2
        rw [List.take_add]
    · have hst : stateBytes (get_next_line B fd w).2 = [] := by
        rw [stateBytes_eq, hbuf]; rfl
      obtain ⟨m, hm, hfiles2, hacc⟩ := ih (get_next_line B fd w).2 [] hoom2
        (by rw [hst]; simp) (by simpa using hf) (by simp)
      refine ⟨pieces.length, le_refl _, ?_, ?_⟩
      · rw [hfiles2]; simp
      · rw [hst] at hacc
        simp only [List.take_nil, List.flatten_nil, List.append_nil] at hacc
        rw [hline, List.map_cons, List.flatten_cons, List.append_assoc, ← hacc, List.take_length]
        by_cases he : stateBytes w ++ pieces.flatten = []
        · simp [he]
        · simp [he]

/-! ## The string helpers on arbitrary cells -/

theorem ft_strlen_eq_loop (s : List Byte) : ft_strlen s = strlen_loop s := by
  cases s with
  | nil => rfl
  | cons b s =>
    by_cases hb : b = 0
    · simp [ft_strlen, charAt, strlen_loop, hb]
    · simp [ft_strlen, charAt, hb]

theorem ft_strlen_cons (b : Byte) (s : List Byte) :
    ft_strlen (b :: s) = if b = 0 then 0 else ft_strlen s + 1 := by
  rw [ft_strlen_eq_loop, ft_strlen_eq_loop]
  by_cases hb : b = 0 <;> simp [strlen_loop, hb]

theorem cstr_cons (b : Byte) (s : List Byte) :
    cstr (b :: s) = if b = 0 then [] else b :: cstr s := by
  by_cases hb : b = 0 <;> simp [cstr, List.takeWhile_cons, hb]

theorem ft_strlen_eq_cstr (s : List Byte) : ft_strlen s = (cstr s).length := by
  induction s with
  | nil => rfl
  | cons b s ih =>
    rw [ft_strlen_cons, cstr_cons]
    by_cases hb : b = 0 <;> simp [hb, ih]

theorem take_ft_strlen (s : List Byte) : s.take (ft_strlen s) = cstr s := by
  induction s with
  | nil => rfl
  | cons b s ih =>
    rw [ft_strlen_cons, cstr_cons]
    by_cases hb : b = 0 <;> simp [hb, ih]

theorem cstr_nulfree (s : List Byte) : 0 ∉ cstr s := by
  induction s with
  | nil => simp [cstr]
  | cons b s ih =>
    rw [cstr_cons]
    by_cases hb : b = 0
    · simp [hb]
    · simp only [hb, if_false, List.mem_cons, not_or]
      exact ⟨fun e => hb e.symm, ih⟩

theorem cstr_of_nulfree (s : List Byte) (h : 0 ∉ s) : cstr s = s := by
  rw [← take_ft_strlen, ft_strlen_nulfree s h, List.take_length]

theorem charAt_succ (b : Byte) (s : List Byte) (j : Nat) :
    charAt (b :: s) (j + 1) = charAt s j := by
  simp [charAt]

/-- What `ft_strchr` returns, by cases on its result. -/
theorem ft_strchr_spec (c : Int) :
    ∀ s : List Byte,
      (∀ i, ft_strchr s c = some i →
        i ≤ ft_strlen s ∧ (∀ j, j < i → charAt s j ≠ toChar c) ∧
        (i < ft_strlen s → charAt s i = toChar c) ∧ (i = ft_strlen s → toChar c = 0)) ∧
      (ft_strchr s c = none →
        toChar c ≠ 0 ∧ ∀ j, j < ft_strlen s → charAt s j ≠ toChar c) := by
  intro s
  induction s with
  | nil =>
    by_cases ht : toChar c = 0 <;> simp [ft_strchr, ft_strlen, charAt, ht]
  | cons b s ih =>
    by_cases hb : b = 0
    · subst hb
      by_cases ht : toChar c = 0 <;> simp [ft_strchr, ft_strlen, charAt, ht]
    · have hlen : ft_strlen (b :: s) = ft_strlen s + 1 := by
        rw [ft_strlen_cons, if_neg hb]
      by_cases hbt : b = toChar c
      · have hrun : ft_strchr (b :: s) c = some 0 := by simp [ft_strchr, hb, hbt]
        rw [hrun, hlen]
        refine ⟨fun i hi => ?_, fun h => absurd h (by simp)⟩
        have hi0 : i = 0 := (Option.some.inj hi).symm
        subst hi0
        exact ⟨Nat.zero_le _, fun j hj => absurd hj (Nat.not_lt_zero _),
          fun _ => by simpa [charAt] using hbt, fun h => absurd h (by omega)⟩
      · have hrun : ft_strchr (b :: s) c = (ft_strchr s c).map (· + 1) := by
          simp [ft_strchr, hb, hbt]
        have hhead : charAt (b :: s) 0 ≠ toChar c := by simpa [charAt] using hbt
        rw [hrun, hlen]
        constructor
        · intro i hi
          cases hr : ft_strchr s c with
          | none => rw [hr] at hi; exact absurd hi (by simp)
          | some i0 =>
            rw [hr] at hi
            have hi1 : i = i0 + 1 := (Option.some.inj hi).symm
            subst hi1
            obtain ⟨h1, h2, h3, h4⟩ := ih.1 i0 hr
            refine ⟨by omega, fun j hj => ?_, fun hlt => ?_, fun he => h4 (by omega)⟩
            · cases j with
              | zero => exact hhead
              | succ j => rw [charAt_succ]; exact h2 j (by omega)
            · rw [charAt_succ]; exact h3 (by omega)
        · intro hn
          cases hr : ft_strchr s c with
          | some i0 => rw [hr] at hn; exact absurd hn (by simp)
          | none =>
            obtain ⟨h1, h2⟩ := ih.2 hr
            refine ⟨h1, fun j hj => ?_⟩
            cases j with
            | zero => exact hhead
            | succ j => rw [charAt_succ]; exact h2 j (by omega)

/-! ## A line is returned only when the allocations before it succeeded -/

theorem loop_allocs (B fd : Int) :
    ∀ (fuel : Nat) (buffer buff : Buf) (w : World) (b2 : Buf) (w2 : World),
      read_and_store_loop B fd fuel buffer buff w = (some b2, w2) → AllocsSucceeded w w2 := by
  intro fuel
  induction fuel with
  | zero =>
    intro buffer buff w b2 w2 h
    simp only [read_and_store_loop, Prod.mk.injEq] at h
    rw [← h.2]
    exact ⟨rfl, le_refl _, fun n h1 h2 => absurd h2 (by simp [free]; omega)⟩
  | succ fuel ih =>
    intro buffer buff w b2 w2 h
    by_cases hs : (ft_strchr buff.bytes 10).isSome = true
    · simp only [read_and_store_loop, hs, if_true, Prod.mk.injEq] at h
      rw [← h.2]
      exact ⟨rfl, le_refl _, fun n h1 h2 => absurd h2 (by simp [free]; omega)⟩
    · simp only [read_and_store_loop, hs] at h
      generalize hrd : sys_read fd B w = rd at h
      obtain ⟨r, w1⟩ := rd
      have hw1 : w1.oom = w.oom ∧ w1.allocs = w.allocs := by
        unfold sys_read at hrd
        split at hrd <;> (simp only [Prod.mk.injEq] at hrd; rw [← hrd.2]; exact ⟨rfl, rfl⟩)
      by_cases hret : r.ret ≤ 0
      · simp only [hret, Bool.false_eq_true, if_false, if_true, Prod.mk.injEq] at h
        rw [← h.2]
        exact ⟨hw1.1, by simp [free, hw1.2], fun n h1 h2 =>
          absurd h2 (by simp [free, hw1.2]; omega)⟩
      · simp only [hret, Bool.false_eq_true, if_false] at h
        by_cases hm : w1.oom w1.allocs = true
        · simp [ft_create_buffer, ft_strjoin, malloc, hm] at h
        · simp only [ft_create_buffer, ft_strjoin, malloc, hm, Bool.false_eq_true,
            if_false] at h
          obtain ⟨h1, h2, h3⟩ := ih _ _ _ b2 w2 h
          simp only [free] at h1 h2 h3
          refine ⟨h1.trans hw1.1, by omega, fun n hn1 hn2 => ?_⟩
          rcases Nat.lt_or_ge n (w1.allocs + 1) with hlt | hge
          · have hn : n = w1.allocs := by omega
            rw [hn, ← hw1.1]; simpa using hm
          · rw [← hw1.1]; exact h3 n hge hn2

theorem read_and_store_allocs (B fd : Int) (buff : Option Buf) (w : World) (b2 : Buf)
    (w2 : World) (h : read_and_store B fd buff w = (some b2, w2)) : AllocsSucceeded w w2 := by
  have hloop : ∀ (b : Buf) (w1 : World),
      (match malloc (B + 1) w1 with
        | (none, w3) => ((none : Option Buf), free (some b) w3)
        | (some p, w3) =>
          read_and_store_loop B fd ((w3.files fd).length + 1) ⟨p, []⟩ b w3) = (some b2, w2) →
      AllocsSucceeded w1 w2 := by
    intro b w1 h1
    by_cases hm : w1.oom w1.allocs = true
    · simp [malloc, hm] at h1
    · simp only [malloc, hm, Bool.false_eq_true, if_false] at h1
      obtain ⟨e1, e2, e3⟩ := loop_allocs B fd _ _ _ _ b2 w2 h1
      simp only at e1 e2 e3
      refine ⟨e1, by omega, fun n hn1 hn2 => ?_⟩
      rcases Nat.lt_or_ge n (w1.allocs + 1) with hlt | hge
      · have hn : n = w1.allocs := by omega
        rw [hn]; simpa using hm
      · exact e3 n hge hn2
  cases buff with
  | some b => exact hloop b w h
  | none =>
    by_cases hm : w.oom w.allocs = true
    · simp [read_and_store, malloc, hm] at h
    · simp only [read_and_store, malloc, hm, Bool.false_eq_true, if_false] at h
      obtain ⟨e1, e2, e3⟩ := hloop ⟨w.allocs, []⟩ { w with allocs := w.allocs + 1 } h
      simp only at e1 e2 e3
      refine ⟨e1, by omega, fun n hn1 hn2 => ?_⟩
      rcases Nat.lt_or_ge n (w.allocs + 1) with hlt | hge
      · have hn : n = w.allocs := by omega
        rw [hn]; simpa using hm
      · exact e3 n hge hn2

/-- When a call returns a line, the allocation of the line and every
allocation issued before it in the call succeeded: a failure of the initial
empty state, of the chunk, of a concatenation or of the line gives
no-result. -/
theorem gnl_line_allocs (B fd : Int) (w : World) (line : Buf)
    (h : (get_next_line B fd w).1 = some line) :
    w.allocs ≤ line.id ∧ ∀ n, w.allocs ≤ n → n ≤ line.id → w.oom n = false := by
  unfold get_next_line at h
  split at h
  · exact absurd h (by simp)
  · generalize hrs : read_and_store B fd w.buffer w = rs at h
    obtain ⟨_ | b, w1⟩ := rs
    · exact absurd h (by simp)
    · obtain ⟨e1, e2, e3⟩ := read_and_store_allocs B fd w.buffer w b w1 hrs
      simp only at h
      have hx : (extract_line (some b) { w1 with buffer := some b }).1 = some line := h
      have hid : line.id = w1.allocs ∧ w1.oom w1.allocs = false := by
        simp only [extract_line] at hx
        split at hx
        · exact absurd hx (by simp)
        · by_cases hm : w1.oom w1.allocs = true
          · simp [malloc, hm] at hx
          · simp only [malloc, hm, Bool.false_eq_true, if_false] at hx
            split at hx <;>
              (simp only [Option.some.injEq] at hx; rw [← hx]; exact ⟨rfl, by simpa using hm⟩)
      refine ⟨by omega, fun n hn1 hn2 => ?_⟩
      rcases Nat.lt_or_ge n w1.allocs with hlt | hge
      · exact e3 n hn1 hlt
      · have hn : n = w1.allocs := by omega
        rw [hn, ← e1]; exact hid.2

/-! ## The claims -/

/-- C1 (round trip).  Let `c` be NUL-free and let `read` hand out `c` in
successive non-empty pieces of at most `B >= 1` bytes, then 0 forever.  From an
absent state, any sequence of more than `length c` calls of `get_next_line`
reaches a no-result, and the lines returned before the first no-result,
concatenated in call order, are exactly `c`. -/
theorem C1_round_trip (B fd : Int) (w : World) (pieces : List (List Byte)) (c : List Byte)
    (hfd : 0 ≤ fd) (hB : 1 ≤ B) (hc : 0 ∉ c) (hch : Chunked B pieces c)
    (hbuf : w.buffer = none) (hoom : NoOOM w)
    (hfiles : w.files fd = pieces.map ReadResult.data) (n : Nat) (hn : c.length < n) :
    none ∈ results B fd n w ∧ (linesBeforeNone (results B fd n w)).flatten = c := by
  have hready := ready_of_chunked B fd w pieces c hc hch hbuf hoom hfiles
  have hk := refSplit_length_le c
  rw [results_ready B fd hfd (by omega) n w c hready, take_lines_append _ n (by omega)]
  constructor
  · apply List.mem_append_right
    obtain ⟨m, hm⟩ : ∃ m, n - (refSplit c).length = m + 1 := ⟨n - (refSplit c).length - 1, by omega⟩
    rw [hm, List.replicate_succ]
    exact List.mem_cons_self _ _
  · rw [linesBeforeNone_lines, refSplit_flatten]

/-- Witness of C1: the content "abc\ndef" read with chunk size 3. -/
theorem C1_round_trip_witness :
    (linesBeforeNone (results 3 3 8
        (freshWorld 3 [.data [97, 98, 99], .data [10, 100, 101], .data [102]]))).flatten
      = [97, 98, 99, 10, 100, 101, 102] :=
  (C1_round_trip 3 3 (freshWorld 3 [.data [97, 98, 99], .data [10, 100, 101], .data [102]])
    [[97, 98, 99], [10, 100, 101], [102]] [97, 98, 99, 10, 100, 101, 102]
    (by decide) (by decide) (by decide) ⟨by decide, by decide⟩ rfl (fun _ => rfl)
    (by simp [freshWorld]) 8 (by decide)).2

/-- C2 (reference segmentation).  With `c` NUL-free and handed out in non-empty
pieces of at most `B >= 1` bytes, from an absent state: the results of any
number `n` of calls are the pieces of the reference split of `c`, in order,
followed by no-results; in particular the call of index `k` (from 0) returns
the piece of index `k`, and no-result when there is no such piece; and any
other positive chunk size and any other way of cutting `c` give the same
results. -/
theorem C2_reference_segmentation (B fd : Int) (w : World) (pieces : List (List Byte))
    (c : List Byte) (hfd : 0 ≤ fd) (hB : 1 ≤ B) (hc : 0 ∉ c) (hch : Chunked B pieces c)
    (hbuf : w.buffer = none) (hoom : NoOOM w)
    (hfiles : w.files fd = pieces.map ReadResult.data) :
    (∀ n, results B fd n w = ((refSplit c).map some ++ List.replicate n none).take n) ∧
    (∀ k, (results B fd (k + 1) w)[k]? = some ((refSplit c)[k]?)) ∧
    (∀ (B2 fd2 : Int) (w2 : World) (pieces2 : List (List Byte)), 0 ≤ fd2 → 1 ≤ B2 →
      Chunked B2 pieces2 c → w2.buffer = none → NoOOM w2 →
      w2.files fd2 = pieces2.map ReadResult.data →
      ∀ n, results B2 fd2 n w2 = results B fd n w) := by
  have hready := ready_of_chunked B fd w pieces c hc hch hbuf hoom hfiles
  have hall := fun n => results_ready B fd hfd (by omega) n w c hready
  refine ⟨hall, fun k => ?_, ?_⟩
  · rw [hall (k + 1), List.getElem?_take_of_lt (Nat.lt_succ_self k)]
    by_cases hk : k < (refSplit c).length
    · rw [List.getElem?_append_left (by simpa using hk)]
      simp [List.getElem?_eq_getElem hk]
    · rw [List.getElem?_append_right (by simpa using hk)]
      simp only [List.length_map]
      rw [List.getElem?_eq_none (Nat.le_of_not_lt hk)]
      simp [List.getElem?_replicate]
      omega
  · intro B2 fd2 w2 pieces2 hfd2 hB2 hch2 hbuf2 hoom2 hfiles2 n
    rw [hall n, results_ready B2 fd2 hfd2 (by omega) n w2 c
      (ready_of_chunked B2 fd2 w2 pieces2 c hc hch2 hbuf2 hoom2 hfiles2)]

/-- Witness of C2: the content "abc\ndef" with chunk size 3 gives "abc\n",
"def", no-result. -/
theorem C2_reference_segmentation_witness :
    results 3 3 3 (freshWorld 3 [.data [97, 98, 99], .data [10, 100, 101], .data [102]])
      = [some [97, 98, 99, 10], some [100, 101, 102], none] :=
  ((C2_reference_segmentation 3 3
      (freshWorld 3 [.data [97, 98, 99], .data [10, 100, 101], .data [102]])
      [[97, 98, 99], [10, 100, 101], [102]] [97, 98, 99, 10, 100, 101, 102]
      (by decide) (by decide) (by decide) ⟨by decide, by decide⟩ rfl (fun _ => rfl)
      (by simp [freshWorld])).1 3).trans (by decide)

/-- C3 (final unterminated line).  Let `c` be non-empty, NUL-free, not ending
with a newline, handed out in non-empty pieces of at most `B >= 1` bytes, the
state absent at the start.  Then the calls return first some lines `front`,
none of which equals the bytes of `c` after its last newline, then exactly
those bytes, which are non-empty and hold no newline, and every later call
returns no-result: the unterminated tail is the last present result, it is
returned by one call only, and the very next call returns no-result. -/
theorem C3_final_unterminated_line (B fd : Int) (w : World) (pieces : List (List Byte))
    (c : List Byte) (hfd : 0 ≤ fd) (hB : 1 ≤ B) (hc : 0 ∉ c) (hch : Chunked B pieces c)
    (hbuf : w.buffer = none) (hoom : NoOOM w)
    (hfiles : w.files fd = pieces.map ReadResult.data)
    (hne : c ≠ []) (hlast : c.getLast? ≠ some NL) :
    ∃ front : List (List Byte),
      (∀ l ∈ front, l ≠ afterLastNewline c) ∧
      NL ∉ afterLastNewline c ∧ afterLastNewline c ≠ [] ∧
      ∀ n, results B fd (front.length + 1 + n) w
        = front.map some ++ some (afterLastNewline c) :: List.replicate n none := by
  have hready := ready_of_chunked B fd w pieces c hc hch hbuf hoom hfiles
  obtain ⟨front, hfront, hall⟩ := refSplit_last c.length c (le_refl _) hne hlast
  have htail : NL ∉ afterLastNewline c := afterLastNewline_not_mem c
  refine ⟨front, fun l hl e => htail (e ▸ hall l hl), htail, ?_, fun n => ?_⟩
  · exact afterLastNewline_ne_nil c hne hlast
  · rw [results_ready B fd hfd (by omega) _ w c hready, hfront,
      take_lines_append _ _ (by simp)]
    simp

/-- Witness of C3: the content "abc\ndef" read with chunk size 3. -/
theorem C3_final_unterminated_line_witness :
    ∃ front : List (List Byte),
      (∀ l ∈ front, l ≠ afterLastNewline [97, 98, 99, 10, 100, 101, 102]) ∧
      NL ∉ afterLastNewline [97, 98, 99, 10, 100, 101, 102] ∧
      afterLastNewline [97, 98, 99, 10, 100, 101, 102] ≠ [] ∧
      ∀ n, results 3 3 (front.length + 1 + n)
          (freshWorld 3 [.data [97, 98, 99], .data [10, 100, 101], .data [102]])
        = front.map some ++ some (afterLastNewline [97, 98, 99, 10, 100, 101, 102])
            :: List.replicate n none :=
  C3_final_unterminated_line 3 3
    (freshWorld 3 [.data [97, 98, 99], .data [10, 100, 101], .data [102]])
    [[97, 98, 99], [10, 100, 101], [102]] [97, 98, 99, 10, 100, 101, 102]
    (by decide) (by decide) (by decide) ⟨by decide, by decide⟩ rfl (fun _ => rfl)
    (by simp [freshWorld]) (by decide) (by decide)

/-- C4 (exhausted stream is a fixed point).  With an absent state, a call whose
read returns 0 returns no-result and leaves the state absent, for every
descriptor, chunk size and allocator behaviour; the function is total, so the
call terminates.  Hence when every read left on the descriptor returns 0, any
number of calls return no-result and the state stays absent. -/
theorem C4_exhausted_fixed_point (B fd : Int) (w : World) (hbuf : w.buffer = none) :
    ((sys_read fd B w).1.ret = 0 →
      (get_next_line B fd w).1 = none ∧ (get_next_line B fd w).2.buffer = none) ∧
    ((∀ r ∈ w.files fd, r.ret = 0) →
      ∀ n, (calls B fd n w).1 = List.replicate n none ∧ (calls B fd n w).2.buffer = none) := by
  constructor
  · intro hr
    obtain ⟨h1, h2, -⟩ := gnl_absent_stop B fd w hbuf (le_of_eq hr)
    exact ⟨h1, h2⟩
  · intro hs n
    exact calls_absent_stop B fd n w hbuf (fun r hm => le_of_eq (hs r hm))

/-- Witness of C4: three calls on an empty stream. -/
theorem C4_exhausted_fixed_point_witness :
    ((get_next_line 3 3 (freshWorld 3 [])).1 = none ∧
      (get_next_line 3 3 (freshWorld 3 [])).2.buffer = none) ∧
    ((calls 3 3 3 (freshWorld 3 [])).1 = [none, none, none] ∧
      (calls 3 3 3 (freshWorld 3 [])).2.buffer = none) :=
  have h := C4_exhausted_fixed_point 3 3 (freshWorld 3 []) rfl
  ⟨h.1 (by decide), h.2 (by simp [freshWorld]) 3⟩

/-- C5 (no empty line).  In every world (any state, any stream content, any
chunk size) a result of `get_next_line` is no-result or a line of at least one
byte; on an empty stream with an absent state the call returns no-result. -/
theorem C5_no_empty_line (B fd : Int) (w : World) :
    (∀ line, (get_next_line B fd w).1 = some line → 1 ≤ line.bytes.length) ∧
    (w.buffer = none → w.files fd = [] → (get_next_line B fd w).1 = none) := by
  constructor
  · intro line h
    rcases gnl_result_cases B fd w with e | ⟨buff, w1, e⟩
    · rw [e] at h; exact absurd h (by simp)
    · rw [e] at h
      exact List.length_pos.2 (extract_line_nonempty buff w1 line h)
  · intro hb hf
    exact (gnl_absent_stop B fd w hb (by simp [sys_read, hf, ReadResult.ret])).1

/-- Witness of C5: a call that returns the line "abc\n", and a call on an
empty stream. -/
theorem C5_no_empty_line_witness :
    1 ≤ ([97, 98, 99, 10] : List Byte).length ∧
      (get_next_line 3 3 (freshWorld 3 [])).1 = none :=
  ⟨(C5_no_empty_line 3 3
      (freshWorld 3 [.data [97, 98, 99], .data [10, 100, 101], .data [102]])).1
      ⟨4, [97, 98, 99, 10]⟩ (by decide),
    (C5_no_empty_line 3 3 (freshWorld 3 [])).2 rfl rfl⟩

/-- C6 (invalid input).  With a negative descriptor, or a chunk size that is
not positive, `get_next_line` returns no-result and the world is exactly what
it was: no read was issued, nothing was allocated or released, and the static
buffer is untouched. -/
theorem C6_invalid_input (B fd : Int) (w : World) (h : fd < 0 ∨ B ≤ 0) :
    get_next_line B fd w = (none, w) := by
  simp [get_next_line, h]

/-- Witness of C6: descriptor -1 on a stream that holds a line. -/
theorem C6_invalid_input_witness :
    ((-1 : Int) < 0 ∨ (3 : Int) ≤ 0) ∧
      get_next_line 3 (-1) (freshWorld (-1) [.data [97, 10]])
        = (none, freshWorld (-1) [.data [97, 10]]) ∧
      get_next_line 0 3 leftoverWorld = (none, leftoverWorld) :=
  ⟨by decide, C6_invalid_input 3 (-1) (freshWorld (-1) [.data [97, 10]]) (by decide),
    C6_invalid_input 0 3 leftoverWorld (by decide)⟩

/-- C7 as stated fails: after a first call that returned "ab\n" the state
holds the leftover "cd", which has no newline; in the second call the read
reports an error, and the call returns the line "cd", not no-result. -/
theorem C7_read_error_counterexample :
    stateBytes leftoverWorld = [99, 100] ∧ NL ∉ stateBytes leftoverWorld ∧
      (sys_read 3 10 leftoverWorld).1.ret < 0 ∧
      content (get_next_line 10 3 leftoverWorld).1 = some [99, 100] ∧
      (get_next_line 10 3 leftoverWorld).1 ≠ none := by
  decide

/-- C7, amended.  Let the state hold no newline (absent, empty, or leftover
bytes), allocations succeed, and the read report an error during the call,
after chunks without a newline.  Then the call returns no-result when nothing
is buffered and nothing was read before the error, and otherwise returns the
buffered bytes followed by the chunks read as a line; the state is absent
afterwards, and every further call in which the read keeps failing returns
no-result. -/
theorem C7_read_error_amended (B fd : Int) (w : World) (pieces : List (List Byte)) (m : Nat)
    (hfd : 0 ≤ fd) (hB : 1 ≤ B) (hoom : NoOOM w)
    (h0 : 0 ∉ stateBytes w) (hnl : NL ∉ stateBytes w)
    (hpieces : ∀ p ∈ pieces, p ≠ [] ∧ 0 ∉ p ∧ NL ∉ p)
    (hfiles : w.files fd
      = pieces.map ReadResult.data ++ List.replicate (m + 1) ReadResult.error) :
    content (get_next_line B fd w).1
        = (if stateBytes w ++ pieces.flatten = [] then none
           else some (stateBytes w ++ pieces.flatten)) ∧
      (get_next_line B fd w).2.buffer = none ∧
      ∀ n, n ≤ m → (calls B fd n (get_next_line B fd w).2).1 = List.replicate n none := by
  obtain ⟨hline, hbuf, hf⟩ :=
    gnl_stop_call B fd w pieces (List.replicate (m + 1) ReadResult.error) hfd (by omega) hoom
      h0 hnl hpieces (by simp [List.replicate_succ, ReadResult.ret]) hfiles
  refine ⟨hline, hbuf, fun n _ => ?_⟩
  refine (calls_absent_stop B fd n _ hbuf ?_).1
  intro r hr
  rw [hf] at hr
  have : r = ReadResult.error := by
    simp only [List.replicate_succ, List.tail_cons] at hr
    exact List.eq_of_mem_replicate hr
  simp [this, ReadResult.ret]

/-- Witness of C7 amended: the leftover "cd" is returned when the read fails,
and the next call returns no-result. -/
theorem C7_read_error_amended_witness :
    content (get_next_line 10 3 leftoverWorld).1 = some [99, 100] ∧
      (get_next_line 10 3 leftoverWorld).2.buffer = none ∧
      (calls 10 3 1 (get_next_line 10 3 leftoverWorld).2).1 = [none] :=
  have h := C7_read_error_amended 10 3 leftoverWorld [] 1 (by decide) (by decide)
    (fun _ => rfl) (by decide) (by decide) (by simp) (by decide)
  ⟨h.1.trans (by decide), h.2.1, h.2.2 1 (le_refl 1)⟩

/-- C8 (a read error is like end-of-stream).  Take any world in which some
read of the descriptor fails, and the world that differs only in that this
read returns 0.  A call of `get_next_line` returns the same line in both and
leaves the same state.  When the failing read is reached in the call (state
and chunks read before it hold no newline, allocations succeed), the bytes
accumulated before the error are the line returned (no-result when there are
none). -/
theorem C8_error_as_eof (B fd : Int) (w : World) (pre post : List ReadResult)
    (hfiles : w.files fd = pre ++ ReadResult.error :: post) :
    ((get_next_line B fd w).1
        = (get_next_line B fd (withScript w fd (pre ++ ReadResult.data [] :: post))).1 ∧
      (get_next_line B fd w).2.buffer
        = (get_next_line B fd (withScript w fd (pre ++ ReadResult.data [] :: post))).2.buffer) ∧
    (∀ pieces : List (List Byte), pre = pieces.map ReadResult.data → 0 ≤ fd → 1 ≤ B →
      NoOOM w → 0 ∉ stateBytes w → NL ∉ stateBytes w →
      (∀ p ∈ pieces, p ≠ [] ∧ 0 ∉ p ∧ NL ∉ p) →
      content (get_next_line B fd w).1
        = (if stateBytes w ++ pieces.flatten = [] then none
           else some (stateBytes w ++ pieces.flatten))) := by
  constructor
  · obtain ⟨res, w2, G, G0, e1, e2⟩ :=
      gnl_sim B fd w w.files (Function.update w.files fd (pre ++ ReadResult.data [] :: post))
        (Or.inr ⟨pre, post, hfiles, by simp⟩)
    have e1b : get_next_line B fd w = (res, { w2 with files := G }) := e1
    have e2b : get_next_line B fd (withScript w fd (pre ++ ReadResult.data [] :: post))
        = (res, { w2 with files := G0 }) := e2
    rw [e1b, e2b]
    exact ⟨rfl, rfl⟩
  · intro pieces hpre hfd hB hoom h0 hnl hpieces
    exact (gnl_stop_call B fd w pieces (ReadResult.error :: post) hfd (by omega) hoom h0 hnl
      hpieces (by simp [ReadResult.ret]) (by rw [hfiles, hpre])).1

/-- Witness of C8: with the leftover "cd" buffered, the failing read and a
read returning 0 give the same line and the same state. -/
theorem C8_error_as_eof_witness :
    ((get_next_line 10 3 leftoverWorld).1
        = (get_next_line 10 3 (withScript leftoverWorld 3 [.data [], .error])).1 ∧
      (get_next_line 10 3 leftoverWorld).2.buffer
        = (get_next_line 10 3 (withScript leftoverWorld 3 [.data [], .error])).2.buffer) ∧
      content (get_next_line 10 3 leftoverWorld).1 = some [99, 100] :=
  have h := C8_error_as_eof 10 3 leftoverWorld [] [.error] (by decide)
  ⟨h.1, (h.2 [] rfl (by decide) (by decide) (fun _ => rfl) (by decide) (by decide)
    (by simp)).trans (by decide)⟩

/-- C9 (top-up reads only while no newline is buffered).  Let allocations
succeed, the state be NUL-free, and the descriptor deliver the non-empty
NUL-free chunks `pieces` and then `rest`, whose first read, if any, returns
zero or fails.  Then `read_and_store` reads the first `k` chunks and returns
the prior bytes followed by exactly these chunks, in order; before each of
these reads the accumulated bytes held no newline; either the accumulated
bytes now hold a newline, exactly `k` reads were issued and the other chunks
are still to be read, or they hold none, every chunk was read and one more
read met `rest`.  In particular, when the incoming state holds a newline the
same buffer is returned, no read is issued and the descriptors are untouched. -/
theorem C9_top_up_reads (B fd : Int) (w : World) (buff : Option Buf)
    (pieces : List (List Byte)) (rest : List ReadResult) (hoom : NoOOM w)
    (h0 : ∀ b, buff = some b → 0 ∉ b.bytes)
    (hfiles : w.files fd = pieces.map ReadResult.data ++ rest)
    (hpieces : ∀ p ∈ pieces, p ≠ [] ∧ 0 ∉ p)
    (hrest : ∀ r, rest.head? = some r → r.ret ≤ 0) :
    (∃ (k : Nat) (id : Nat) (w2 : World), k ≤ pieces.length ∧
      read_and_store B fd buff w
        = (some ⟨id, (content buff).getD [] ++ (pieces.take k).flatten⟩, w2) ∧
      (∀ j, j < k → NL ∉ (content buff).getD [] ++ (pieces.take j).flatten) ∧
      ((NL ∈ (content buff).getD [] ++ (pieces.take k).flatten ∧
          w2.files fd = (pieces.drop k).map ReadResult.data ++ rest ∧
          w2.reads = w.reads + k) ∨
       (NL ∉ (content buff).getD [] ++ (pieces.take k).flatten ∧ k = pieces.length ∧
          w2.files fd = rest.tail ∧ w2.reads = w.reads + k + 1))) ∧
    (∀ b, buff = some b → NL ∈ b.bytes →
      (read_and_store B fd buff w).1 = some b ∧
      (read_and_store B fd buff w).2.reads = w.reads ∧
      (read_and_store B fd buff w).2.files = w.files) := by
  constructor
  · obtain ⟨k, id, w2, hk, hrun, -, -, -, hmin, hfin⟩ :=
      read_and_store_spec B fd rest hrest pieces buff w hoom hfiles hpieces h0
    exact ⟨k, id, w2, hk, hrun, hmin, hfin⟩
  · intro b hb hnl
    subst hb
    have hs := (ft_strchr_nl b.bytes (h0 b rfl)).2 hnl
    simp [read_and_store, malloc_ok _ w (hoom _), read_and_store_loop, hs, free]

/-- Witness of C9: with "x\ny" buffered nothing is read; from an absent state
the chunk "ab\nc" is read and the chunk "d" is left unread. -/
theorem C9_top_up_reads_witness :
    (∃ (k : Nat) (id : Nat) (w2 : World), k ≤ 2 ∧
      read_and_store 10 3 none (freshWorld 3 [.data [97, 98, 10, 99], .data [100]])
        = (some ⟨id, [] ++ (([[97, 98, 10, 99], [100]] : List (List Byte)).take k).flatten⟩, w2) ∧
      (∀ j, j < k → NL ∉ [] ++ (([[97, 98, 10, 99], [100]] : List (List Byte)).take j).flatten) ∧
      ((NL ∈ [] ++ (([[97, 98, 10, 99], [100]] : List (List Byte)).take k).flatten ∧
          w2.files 3 = (([[97, 98, 10, 99], [100]] : List (List Byte)).drop k).map ReadResult.data
            ++ [] ∧
          w2.reads = 0 + k) ∨
       (NL ∉ [] ++ (([[97, 98, 10, 99], [100]] : List (List Byte)).take k).flatten ∧ k = 2 ∧
          w2.files 3 = ([] : List ReadResult).tail ∧ w2.reads = 0 + k + 1))) ∧
    ((read_and_store 10 3 (some ⟨7, [120, 10, 121]⟩) (freshWorld 3 [.data [97]])).1
        = some ⟨7, [120, 10, 121]⟩ ∧
      (read_and_store 10 3 (some ⟨7, [120, 10, 121]⟩) (freshWorld 3 [.data [97]])).2.reads = 0 ∧
      (read_and_store 10 3 (some ⟨7, [120, 10, 121]⟩) (freshWorld 3 [.data [97]])).2.files
        = (freshWorld 3 [.data [97]]).files) :=
  ⟨(C9_top_up_reads 10 3 (freshWorld 3 [.data [97, 98, 10, 99], .data [100]]) none
      [[97, 98, 10, 99], [100]] [] (fun _ => rfl) (by simp) (by simp [freshWorld])
      (by decide) (by simp)).1,
    (C9_top_up_reads 10 3 (freshWorld 3 [.data [97]]) (some ⟨7, [120, 10, 121]⟩)
      [[97]] [] (fun _ => rfl) (by simp) (by simp [freshWorld]) (by decide) (by simp)).2
      ⟨7, [120, 10, 121]⟩ rfl (by decide)⟩

/-- C10 (extract_line returns the first line).  For a non-empty NUL-free
buffer `b`, when the allocation succeeds, `extract_line` returns the bytes of
`b` up to and including its first newline, `(index of the first newline) + 1`
bytes, or all of `b` when it holds no newline; for an absent or an empty buffer
it returns no-result.  The only effect is the allocation of the line: nothing
is released and the buffer is what it was. -/
theorem C10_extract_line (w : World) :
    (∀ b : Buf, b.bytes ≠ [] → 0 ∉ b.bytes → w.oom w.allocs = false →
      ∃ line : Buf,
        extract_line (some b) w = (some line, { w with allocs := w.allocs + 1 }) ∧
        (NL ∈ b.bytes → line.bytes = b.bytes.take (b.bytes.indexOf NL + 1) ∧
          line.bytes.length = b.bytes.indexOf NL + 1) ∧
        (NL ∉ b.bytes → line.bytes = b.bytes ∧ line.bytes.length = b.bytes.length)) ∧
    extract_line none w = (none, w) ∧
    (∀ id, extract_line (some ⟨id, []⟩) w = (none, w)) := by
  refine ⟨fun b hne h0 hm => ⟨⟨w.allocs, firstLine b.bytes⟩,
    extract_line_spec b w h0 hne hm, fun hnl => ⟨rfl, ?_⟩, fun hnl => ?_⟩, rfl, fun id => rfl⟩
  · have hlt : b.bytes.indexOf NL < b.bytes.length := List.indexOf_lt_length.2 hnl
    simp only [firstLine, List.length_take]
    omega
  · simp only [firstLine_no_newline _ hnl, and_self]

/-- Witness of C10: the first line of "ab\ncd" is "ab\n". -/
theorem C10_extract_line_witness :
    ∃ line : Buf,
      extract_line (some ⟨0, [97, 98, 10, 99, 100]⟩) (freshWorld 3 [])
        = (some line, { freshWorld 3 [] with allocs := (freshWorld 3 []).allocs + 1 }) ∧
      (NL ∈ ([97, 98, 10, 99, 100] : List Byte) →
        line.bytes = ([97, 98, 10, 99, 100] : List Byte).take
          (([97, 98, 10, 99, 100] : List Byte).indexOf NL + 1) ∧
        line.bytes.length = ([97, 98, 10, 99, 100] : List Byte).indexOf NL + 1) ∧
      (NL ∉ ([97, 98, 10, 99, 100] : List Byte) →
        line.bytes = [97, 98, 10, 99, 100] ∧
        line.bytes.length = ([97, 98, 10, 99, 100] : List Byte).length) :=
  (C10_extract_line (freshWorld 3 [])).1 ⟨0, [97, 98, 10, 99, 100]⟩ (by decide) (by decide) rfl

/-- C11 (update_buffer keeps what follows the first newline).  For a NUL-free
buffer `b`: when `b` holds no newline the result is absent; when it holds one,
at first index `i`, and the allocation succeeds, the result is present and
holds the bytes of `b` from index `i + 1` on, `length b - (i + 1)` of them,
which is a present and empty buffer when the newline is the last byte.  In
both cases the old buffer is released once. -/
theorem C11_update_buffer (b : Buf) (w : World) (h0 : 0 ∉ b.bytes) :
    (NL ∉ b.bytes →
      (update_buffer b w).1 = none ∧ (update_buffer b w).2.freed = w.freed ++ [b.id]) ∧
    (NL ∈ b.bytes → w.oom w.allocs = false →
      ∃ rest : Buf, (update_buffer b w).1 = some rest ∧
        rest.bytes = b.bytes.drop (b.bytes.indexOf NL + 1) ∧
        rest.bytes.length = b.bytes.length - (b.bytes.indexOf NL + 1) ∧
        (∀ j, rest.bytes[j]? = b.bytes[b.bytes.indexOf NL + 1 + j]?) ∧
        (b.bytes.indexOf NL + 1 = b.bytes.length → rest.bytes = []) ∧
        (update_buffer b w).2.freed = w.freed ++ [b.id]) := by
  constructor
  · intro hnl
    rw [update_buffer_not_found b w h0 hnl]
    exact ⟨rfl, rfl⟩
  · intro hnl hm
    rw [update_buffer_found b w h0 hnl hm]
    refine ⟨⟨w.allocs, afterFirstLine b.bytes⟩, rfl, rfl, ?_, ?_, ?_, rfl⟩
    · simp [afterFirstLine]
    · intro j
      simp [afterFirstLine, List.getElem?_drop]
    · intro he
      simp [afterFirstLine, he]

/-- Witness of C11: "ab\ncd" leaves "cd", "ab\n" leaves a present empty
buffer, "ab" leaves nothing. -/
theorem C11_update_buffer_witness :
    (∃ rest : Buf, (update_buffer ⟨0, [97, 98, 10, 99, 100]⟩ (freshWorld 3 [])).1 = some rest ∧
        rest.bytes = [99, 100]) ∧
      (∃ rest : Buf, (update_buffer ⟨0, [97, 98, 10]⟩ (freshWorld 3 [])).1 = some rest ∧
        rest.bytes = []) ∧
      (update_buffer ⟨0, [97, 98]⟩ (freshWorld 3 [])).1 = none :=
  ⟨(((C11_update_buffer ⟨0, [97, 98, 10, 99, 100]⟩ (freshWorld 3 []) (by decide)).2
        (by decide) rfl).imp fun _ h => ⟨h.1, h.2.1.trans (by decide)⟩),
    (((C11_update_buffer ⟨0, [97, 98, 10]⟩ (freshWorld 3 []) (by decide)).2
        (by decide) rfl).imp fun _ h => ⟨h.1, h.2.2.2.2.1 (by decide)⟩),
    ((C11_update_buffer ⟨0, [97, 98]⟩ (freshWorld 3 []) (by decide)).1 (by decide)).1⟩

/-- C12 (extraction and rebuild partition the buffer).  For a non-empty
NUL-free buffer `b`, when the two allocations succeed, `extract_line` returns
a line, and that line followed by the result of `update_buffer` (nothing when
it is absent) is `b`: one extract and rebuild step drops and duplicates no
byte. -/
theorem C12_extract_rebuild_partition (b : Buf) (w : World) (hne : b.bytes ≠ [])
    (h0 : 0 ∉ b.bytes) (hm1 : w.oom w.allocs = false) (hm2 : w.oom (w.allocs + 1) = false) :
    ∃ line : Buf, (extract_line (some b) w).1 = some line ∧
      line.bytes ++ (content (update_buffer b (extract_line (some b) w).2).1).getD []
        = b.bytes := by
  rw [extract_line_spec b w h0 hne hm1]
  refine ⟨_, rfl, ?_⟩
  by_cases hnl : NL ∈ b.bytes
  · rw [update_buffer_found b _ h0 hnl hm2]
    exact firstLine_append_afterFirstLine b.bytes
  · rw [update_buffer_not_found b _ h0 hnl]
    simp [content, firstLine_no_newline _ hnl]

/-- Witness of C12: the buffers "ab\ncd" (newline inside), "ab\n" (newline
last) and "ab" (no newline). -/
theorem C12_extract_rebuild_partition_witness :
    (∃ line : Buf, (extract_line (some ⟨0, [97, 98, 10, 99, 100]⟩) (freshWorld 3 [])).1
        = some line ∧
      line.bytes ++ (content (update_buffer ⟨0, [97, 98, 10, 99, 100]⟩
          (extract_line (some ⟨0, [97, 98, 10, 99, 100]⟩) (freshWorld 3 [])).2).1).getD []
        = [97, 98, 10, 99, 100]) ∧
    (∃ line : Buf, (extract_line (some ⟨0, [97, 98, 10]⟩) (freshWorld 3 [])).1 = some line ∧
      line.bytes ++ (content (update_buffer ⟨0, [97, 98, 10]⟩
          (extract_line (some ⟨0, [97, 98, 10]⟩) (freshWorld 3 [])).2).1).getD []
        = [97, 98, 10]) ∧
    (∃ line : Buf, (extract_line (some ⟨0, [97, 98]⟩) (freshWorld 3 [])).1 = some line ∧
      line.bytes ++ (content (update_buffer ⟨0, [97, 98]⟩
          (extract_line (some ⟨0, [97, 98]⟩) (freshWorld 3 [])).2).1).getD []
        = [97, 98]) :=
  ⟨C12_extract_rebuild_partition ⟨0, [97, 98, 10, 99, 100]⟩ (freshWorld 3 [])
      (by decide) (by decide) rfl rfl,
    C12_extract_rebuild_partition ⟨0, [97, 98, 10]⟩ (freshWorld 3 [])
      (by decide) (by decide) rfl rfl,
    C12_extract_rebuild_partition ⟨0, [97, 98]⟩ (freshWorld 3 [])
      (by decide) (by decide) rfl rfl⟩

/-- C13 as stated fails: the content "a\nb\nc", NUL-free, is handed out in
one chunk of 5 bytes with chunk size 10; after the first call, which returns
"a\n", the static buffer holds "b\nc", which contains a newline. -/
theorem C13_leftover_newline_counterexample :
    Chunked 10 [[97, 10, 98, 10, 99]] [97, 10, 98, 10, 99] ∧
      (0 : Byte) ∉ ([97, 10, 98, 10, 99] : List Byte) ∧
      twoLinesWorld.buffer = none ∧
      content (get_next_line 10 3 twoLinesWorld).1 = some [97, 10] ∧
      stateBytes (get_next_line 10 3 twoLinesWorld).2 = [98, 10, 99] ∧
      NL ∈ stateBytes (get_next_line 10 3 twoLinesWorld).2 :=
  ⟨⟨by decide, by decide⟩, by decide, by decide, by decide, by decide, by decide⟩

/-- C13, amended.  Let the content be NUL-free and handed out in non-empty
chunks of at most `B >= 1` bytes that hold at most one newline each (as is
always the case when `B = 1`), the state absent at the start.  Then after any
number of calls, that is at the start of every call, the stream state is
absent or empty or holds bytes without a newline. -/
theorem C13_leftover_newline_amended (B fd : Int) (w : World) (pieces : List (List Byte))
    (c : List Byte) (hfd : 0 ≤ fd) (hB : 1 ≤ B) (hc : 0 ∉ c) (hch : Chunked B pieces c)
    (hone : ∀ p ∈ pieces, p.count NL ≤ 1)
    (hbuf : w.buffer = none) (hoom : NoOOM w)
    (hfiles : w.files fd = pieces.map ReadResult.data) (n : Nat) :
    NL ∉ stateBytes (calls B fd n w).2 := by
  have hstart : LeftoverClean fd w := by
    refine ⟨hoom, by simp [stateBytes, hbuf], by simp [stateBytes, hbuf], pieces, hfiles,
      fun p hp => ⟨(hch.2 p hp).1, ?_, hone p hp⟩⟩
    intro hz
    exact hc (by rw [← hch.1]; exact List.mem_flatten.2 ⟨p, hp, hz⟩)
  have hall : ∀ (m : Nat) (w1 : World), LeftoverClean fd w1 →
      LeftoverClean fd (calls B fd m w1).2 := by
    intro m
    induction m with
    | zero => intro w1 h1; exact h1
    | succ m ih =>
      intro w1 h1
      rw [calls_succ_world]
      exact ih _ (leftoverClean_step B fd w1 hfd (by omega) h1)
  exact (hall n w hstart).2.2.1

/-- Witness of C13 amended: "ab\ncd\ne" read with chunk size 3, after one
call. -/
theorem C13_leftover_newline_amended_witness :
    NL ∉ stateBytes (calls 3 3 1
      (freshWorld 3 [.data [97, 98, 10], .data [99, 100, 10], .data [101]])).2 :=
  C13_leftover_newline_amended 3 3
    (freshWorld 3 [.data [97, 98, 10], .data [99, 100, 10], .data [101]])
    [[97, 98, 10], [99, 100, 10], [101]] [97, 98, 10, 99, 100, 10, 101]
    (by decide) (by decide) (by decide) ⟨by decide, by decide⟩ (by decide) rfl (fun _ => rfl)
    (by simp [freshWorld]) 1

/-- C14 (leftover accounting).  Let the content be NUL-free and handed out in
non-empty chunks of at most `B >= 1` bytes, the state absent at the start and
allocations succeed.  After any number `n` of calls the descriptor has handed
out its first `m` chunks, for some `m`, and the bytes of these chunks are the
results returned so far, in order (a no-result counting for nothing), followed
by the bytes of the stream state (an absent state counting for nothing). -/
theorem C14_leftover_accounting (B fd : Int) (w : World) (pieces : List (List Byte))
    (c : List Byte) (hfd : 0 ≤ fd) (hB : 1 ≤ B) (hc : 0 ∉ c) (hch : Chunked B pieces c)
    (hbuf : w.buffer = none) (hoom : NoOOM w)
    (hfiles : w.files fd = pieces.map ReadResult.data) (n : Nat) :
    ∃ m : Nat, m ≤ pieces.length ∧
      (calls B fd n w).2.files fd = (pieces.drop m).map ReadResult.data ∧
      (pieces.take m).flatten
        = ((results B fd n w).map (fun r => r.getD [])).flatten
            ++ stateBytes (calls B fd n w).2 := by
  have hst : stateBytes w = [] := by simp [stateBytes, hbuf]
  obtain ⟨m, hm, hf, hacc⟩ := accounting B fd hfd (by omega) n w pieces hoom
    (by rw [hst]; simp) hfiles
    (fun p hp => ⟨(hch.2 p hp).1, fun hz =>
      hc (by rw [← hch.1]; exact List.mem_flatten.2 ⟨p, hp, hz⟩)⟩)
  rw [hst, List.nil_append] at hacc
  exact ⟨m, hm, hf, hacc⟩

/-- Witness of C14: "ab\ncd" read in chunks of 2 bytes, after one call. -/
theorem C14_leftover_accounting_witness :
    ∃ m : Nat, m ≤ ([[97, 98], [10, 99], [100]] : List (List Byte)).length ∧
      (calls 2 3 1 (freshWorld 3 [.data [97, 98], .data [10, 99], .data [100]])).2.files 3
        = (([[97, 98], [10, 99], [100]] : List (List Byte)).drop m).map ReadResult.data ∧
      (([[97, 98], [10, 99], [100]] : List (List Byte)).take m).flatten
        = ((results 2 3 1
              (freshWorld 3 [.data [97, 98], .data [10, 99], .data [100]])).map
            (fun r => r.getD [])).flatten
            ++ stateBytes
              (calls 2 3 1 (freshWorld 3 [.data [97, 98], .data [10, 99], .data [100]])).2 :=
  C14_leftover_accounting 2 3 (freshWorld 3 [.data [97, 98], .data [10, 99], .data [100]])
    [[97, 98], [10, 99], [100]] [97, 98, 10, 99, 100]
    (by decide) (by decide) (by decide) ⟨by decide, by decide⟩ rfl (fun _ => rfl)
    (by simp [freshWorld]) 1

/-- C15 (the static leftover is shared by all descriptors).  There are two
distinct valid descriptors, with contents "ab\ncd" and "xy\n", and an
interleaving of calls (chunk size 10) in which a call returns a line that is
not a line of its descriptor: the call on the first returns "ab\n" and leaves
"cd" buffered, and the call on the second returns "cdxy\n". -/
theorem C15_shared_static_leftover :
    ∃ (fdA fdB : Int) (cA cB : List Byte) (w : World),
      fdA ≠ fdB ∧ 0 ≤ fdA ∧ 0 ≤ fdB ∧ w.buffer = none ∧ NoOOM w ∧
      w.files fdA = [.data cA] ∧ w.files fdB = [.data cB] ∧
      cA = [97, 98, 10, 99, 100] ∧ cB = [120, 121, 10] ∧
      content (get_next_line 10 fdA w).1 = some [97, 98, 10] ∧
      content (get_next_line 10 fdB (get_next_line 10 fdA w).2).1
        = some [99, 100, 120, 121, 10] ∧
      [99, 100, 120, 121, 10] ∉ refSplit cB :=
  ⟨3, 4, [97, 98, 10, 99, 100], [120, 121, 10], twoDescriptors, by decide, by decide,
    by decide, rfl, fun _ => rfl, rfl, rfl, rfl, rfl, by decide, by decide, by decide⟩

/-- C16 fails on the code at the allocation of `update_buffer`: with chunk
size 10 and the content "ab\ncd", when that allocation fails the call still
returns the line "ab\n", the static buffer is reset and the buffered bytes
"cd" are discarded, so that the next call returns no-result; when no
allocation fails the next call returns "cd". -/
theorem C16_allocation_failure_evidence :
    failingRebuildWorld.oom 4 = true ∧
      content (get_next_line 10 3 failingRebuildWorld).1 = some [97, 98, 10] ∧
      (get_next_line 10 3 failingRebuildWorld).2.allocs = 5 ∧
      (get_next_line 10 3 failingRebuildWorld).2.buffer = none ∧
      content (get_next_line 10 3 (get_next_line 10 3 failingRebuildWorld).2).1 = none ∧
      results 10 3 2 (freshWorld 3 [.data [97, 98, 10, 99, 100]])
        = [some [97, 98, 10], some [99, 100]] := by
  decide

/-- C17 (state presence mirrors the terminator of the line).  On a valid
descriptor, with allocations succeeding, a NUL-free state and NUL-free
non-empty chunks followed by a read that returns zero or fails: the state
after the call is present exactly when the call returned a line that ends
with a newline; when the call returned no-result or a line that does not end
with a newline, the state after the call is absent. -/
theorem C17_state_presence (B fd : Int) (w : World) (pieces : List (List Byte))
    (rest : List ReadResult) (hfd : 0 ≤ fd) (hB : 1 ≤ B) (hoom : NoOOM w)
    (h0 : 0 ∉ stateBytes w)
    (hfiles : w.files fd = pieces.map ReadResult.data ++ rest)
    (hpieces : ∀ p ∈ pieces, p ≠ [] ∧ 0 ∉ p)
    (hrest : ∀ r, rest.head? = some r → r.ret ≤ 0) :
    ((get_next_line B fd w).2.buffer.isSome = true ↔
      ∃ l, content (get_next_line B fd w).1 = some l ∧ l.getLast? = some NL) ∧
    ((content (get_next_line B fd w).1 = none ∨
        ∃ l, content (get_next_line B fd w).1 = some l ∧ l.getLast? ≠ some NL) →
      (get_next_line B fd w).2.buffer = none) := by
  obtain ⟨k, -, -, -, -, hfin⟩ :=
    gnl_call B fd w pieces rest hfd (by omega) hoom h0 hfiles hpieces hrest
  rcases hfin with ⟨hmem, hline, hbuf, -, -⟩ | ⟨hmem, hkl, hline, hbuf, -, -⟩
  · have hlast : (firstLine (stateBytes w ++ (pieces.take k).flatten)).getLast? = some NL := by
      rw [firstLine, ← take_indexOf_append _ hmem]; simp
    have hsome : (get_next_line B fd w).2.buffer.isSome = true := by
      cases hb : (get_next_line B fd w).2.buffer with
      | none => rw [hb] at hbuf; simp [content] at hbuf
      | some b => rfl
    refine ⟨⟨fun _ => ⟨_, hline, hlast⟩, fun _ => hsome⟩, ?_⟩
    rintro (hn | ⟨l, hl, hne⟩)
    · rw [hline] at hn; exact absurd hn (by simp)
    · rw [hline] at hl
      exact absurd hlast (by rw [Option.some.inj hl]; exact hne)
  · have hnone : ∀ l, content (get_next_line B fd w).1 = some l → l.getLast? ≠ some NL := by
      intro l hl hlast
      rw [hline] at hl
      by_cases he : stateBytes w ++ pieces.flatten = []
      · rw [if_pos he] at hl; exact absurd hl (by simp)
      · rw [if_neg he] at hl
        have hm := List.mem_of_getLast?_eq_some hlast
        rw [hkl, List.take_length] at hmem
        rw [← Option.some.inj hl] at hm
        exact hmem hm
    refine ⟨⟨fun h => ?_, fun ⟨l, hl, hlast⟩ => absurd hlast (hnone l hl)⟩, fun _ => hbuf⟩
    rw [hbuf] at h
    exact absurd h (by simp)

/-- Witness of C17: "ab\ncd" in one chunk; the first call returns "ab\n" and
leaves a state. -/
theorem C17_state_presence_witness :
    ((get_next_line 10 3 (freshWorld 3 [.data [97, 98, 10, 99, 100]])).2.buffer.isSome = true ↔
      ∃ l, content (get_next_line 10 3 (freshWorld 3 [.data [97, 98, 10, 99, 100]])).1 = some l ∧
        l.getLast? = some NL) ∧
    ((content (get_next_line 10 3 (freshWorld 3 [.data [97, 98, 10, 99, 100]])).1 = none ∨
        ∃ l, content (get_next_line 10 3 (freshWorld 3 [.data [97, 98, 10, 99, 100]])).1
            = some l ∧ l.getLast? ≠ some NL) →
      (get_next_line 10 3 (freshWorld 3 [.data [97, 98, 10, 99, 100]])).2.buffer = none) :=
  C17_state_presence 10 3 (freshWorld 3 [.data [97, 98, 10, 99, 100]])
    [[97, 98, 10, 99, 100]] [] (by decide) (by decide) (fun _ => rfl) (by decide)
    (by simp [freshWorld]) (by decide) (by simp)

/-- C18 (buffer append consumes its first argument).  For every present prior
state `a` and every chunk, `ft_create_buffer` releases the allocation of `a`
exactly once: the list of released allocations grows by `a` alone.  When the
concatenation succeeds the release is the one made inside `ft_strjoin` and
`ft_create_buffer` adds none; when it fails `ft_strjoin` releases nothing,
`ft_create_buffer` releases `a` itself and reports no result. -/
theorem C18_create_buffer_consumes (a : Buf) (chunk : Option Buf) (w : World) :
    (ft_create_buffer (some a) chunk w).2.freed = w.freed ++ [a.id] ∧
    (ft_create_buffer (some a) chunk w).2.freed.count a.id = w.freed.count a.id + 1 ∧
    (∀ p, (ft_strjoin (some a) chunk w).1 = some p →
      (ft_strjoin (some a) chunk w).2.freed = w.freed ++ [a.id] ∧
      ft_create_buffer (some a) chunk w = ft_strjoin (some a) chunk w) ∧
    ((ft_strjoin (some a) chunk w).1 = none →
      (ft_strjoin (some a) chunk w).2.freed = w.freed ∧
      (ft_create_buffer (some a) chunk w).1 = none) ∧
    (∀ c, chunk = some c →
      ((ft_strjoin (some a) chunk w).1 = none ↔ w.oom w.allocs = true)) := by
  cases chunk with
  | none => simp [ft_create_buffer, ft_strjoin, free]
  | some c =>
    by_cases hm : w.oom w.allocs = true
    · simp [ft_create_buffer, ft_strjoin, malloc, free, hm]
    · simp [ft_create_buffer, ft_strjoin, malloc, free, hm]

/-- Witness of C18: appending "cd" to the state "ab" when the allocation
succeeds, and when it fails. -/
theorem C18_create_buffer_consumes_witness :
    (ft_create_buffer (some ⟨7, [97, 98]⟩) (some ⟨8, [99, 100]⟩)
        { freshWorld 3 [] with freed := [5] }).2.freed = [5, 7] ∧
      (ft_create_buffer (some ⟨7, [97, 98]⟩) (some ⟨8, [99, 100]⟩)
        failingRebuildWorld).2.freed = [7] ∧
      ((ft_strjoin (some ⟨7, [97, 98]⟩) (some ⟨8, [99, 100]⟩)
          { failingRebuildWorld with allocs := 4 }).1 = none →
        (ft_strjoin (some ⟨7, [97, 98]⟩) (some ⟨8, [99, 100]⟩)
            { failingRebuildWorld with allocs := 4 }).2.freed = [] ∧
          (ft_create_buffer (some ⟨7, [97, 98]⟩) (some ⟨8, [99, 100]⟩)
            { failingRebuildWorld with allocs := 4 }).1 = none) :=
  ⟨(C18_create_buffer_consumes ⟨7, [97, 98]⟩ (some ⟨8, [99, 100]⟩)
      { freshWorld 3 [] with freed := [5] }).1,
    (C18_create_buffer_consumes ⟨7, [97, 98]⟩ (some ⟨8, [99, 100]⟩) failingRebuildWorld).1,
    (C18_create_buffer_consumes ⟨7, [97, 98]⟩ (some ⟨8, [99, 100]⟩)
      { failingRebuildWorld with allocs := 4 }).2.2.2.1⟩

/-- C19 (ft_strjoin concatenates).  For present inputs, when the allocation
succeeds, the result holds the string of `s1` followed by the string of `s2`
and no NUL before its terminator, so that its `ft_strlen` is the sum of
those of the inputs; joining with an empty string gives the bytes of the other
input; for NUL-free cells the result is the cells of `s1` followed by those of
`s2`.  When `s1` or `s2` is absent the result is no-result. -/
theorem C19_ft_strjoin (w : World) :
    (∀ a b : Buf, w.oom w.allocs = false →
      ∃ p : Buf, (ft_strjoin (some a) (some b) w).1 = some p ∧
        p.bytes = cstr a.bytes ++ cstr b.bytes ∧ 0 ∉ p.bytes ∧
        ft_strlen p.bytes = ft_strlen a.bytes + ft_strlen b.bytes ∧
        (cstr b.bytes = [] → p.bytes = cstr a.bytes) ∧
        (cstr a.bytes = [] → p.bytes = cstr b.bytes) ∧
        (0 ∉ a.bytes → 0 ∉ b.bytes → p.bytes = a.bytes ++ b.bytes)) ∧
    (∀ s2, (ft_strjoin none s2 w).1 = none) ∧
    (∀ s1, (ft_strjoin s1 none w).1 = none) := by
  refine ⟨fun a b hm => ?_, fun s2 => by cases s2 <;> rfl, fun s1 => by cases s1 <;> rfl⟩
  have h0 : 0 ∉ cstr a.bytes ++ cstr b.bytes := by
    simp only [List.mem_append, not_or]
    exact ⟨cstr_nulfree _, cstr_nulfree _⟩
  refine ⟨⟨w.allocs, cstr a.bytes ++ cstr b.bytes⟩, ?_, rfl, h0, ?_, ?_, ?_, ?_⟩
  · simp [ft_strjoin, malloc_ok _ w hm, take_ft_strlen]
  · rw [ft_strlen_nulfree _ h0, List.length_append, ← ft_strlen_eq_cstr, ← ft_strlen_eq_cstr]
  · intro he; simp [he]
  · intro he; simp [he]
  · intro ha hb
    simp only [cstr_of_nulfree _ ha, cstr_of_nulfree _ hb]

/-- Witness of C19: "ab" joined with "cd", and with the empty string. -/
theorem C19_ft_strjoin_witness :
    (∃ p : Buf, (ft_strjoin (some ⟨0, [97, 98]⟩) (some ⟨1, [99, 100]⟩) (freshWorld 3 [])).1
        = some p ∧ p.bytes = [97, 98, 99, 100]) ∧
      (∃ p : Buf, (ft_strjoin (some ⟨0, [97, 98]⟩) (some ⟨1, []⟩) (freshWorld 3 [])).1
        = some p ∧ p.bytes = [97, 98]) :=
  ⟨((C19_ft_strjoin (freshWorld 3 [])).1 ⟨0, [97, 98]⟩ ⟨1, [99, 100]⟩ rfl).imp
      fun _ h => ⟨h.1, h.2.1.trans (by decide)⟩,
    ((C19_ft_strjoin (freshWorld 3 [])).1 ⟨0, [97, 98]⟩ ⟨1, []⟩ rfl).imp
      fun _ h => ⟨h.1, h.2.1.trans (by decide)⟩⟩

/-- C20 (ft_strchr finds the first occurrence).  Let `t` be `c` truncated to a
byte.  When some index below `ft_strlen s` holds `t`, `ft_strchr s c` returns
the smallest such index; when none does and `t` is NUL it returns the index of
the terminating NUL, `ft_strlen s`; when none does and `t` is not NUL it
returns no result. -/
theorem C20_ft_strchr (s : List Byte) (c : Int) :
    ((∃ i, i < ft_strlen s ∧ charAt s i = toChar c) →
      ∃ i, ft_strchr s c = some i ∧ i < ft_strlen s ∧ charAt s i = toChar c ∧
        ∀ j, j < i → charAt s j ≠ toChar c) ∧
    ((¬ ∃ i, i < ft_strlen s ∧ charAt s i = toChar c) → toChar c = 0 →
      ft_strchr s c = some (ft_strlen s)) ∧
    ((¬ ∃ i, i < ft_strlen s ∧ charAt s i = toChar c) → toChar c ≠ 0 →
      ft_strchr s c = none) := by
  obtain ⟨hsome, hnone⟩ := ft_strchr_spec c s
  refine ⟨?_, ?_, ?_⟩
  · rintro ⟨i0, hi0, hc0⟩
    cases hr : ft_strchr s c with
    | none => exact absurd hc0 ((hnone hr).2 i0 hi0)
    | some i =>
      obtain ⟨h1, h2, h3, -⟩ := hsome i hr
      have hlt : i < ft_strlen s := by
        rcases Nat.lt_or_ge i (ft_strlen s) with h | h
        · exact h
        · exact absurd hc0 (h2 i0 (by omega))
      exact ⟨i, rfl, hlt, h3 hlt, h2⟩
  · intro hno ht
    cases hr : ft_strchr s c with
    | none => exact absurd ht (hnone hr).1
    | some i =>
      obtain ⟨h1, -, h3, -⟩ := hsome i hr
      rcases Nat.lt_or_ge i (ft_strlen s) with h | h
      · exact absurd ⟨i, h, h3 h⟩ hno
      · rw [show i = ft_strlen s by omega]
  · intro hno ht
    cases hr : ft_strchr s c with
    | none => rfl
    | some i =>
      obtain ⟨h1, -, h3, h4⟩ := hsome i hr
      rcases Nat.lt_or_ge i (ft_strlen s) with h | h
      · exact absurd ⟨i, h, h3 h⟩ hno
      · exact absurd (h4 (by omega)) ht

/-- Witness of C20: in "abcb" the byte 'b' is first at index 1, also when it
is given as 98 + 256; NUL is found at index 4; 'z' is not found. -/
theorem C20_ft_strchr_witness :
    (∃ i, ft_strchr [97, 98, 99, 98] 354 = some i ∧ i < ft_strlen [97, 98, 99, 98] ∧
        charAt [97, 98, 99, 98] i = toChar 354 ∧
        ∀ j, j < i → charAt [97, 98, 99, 98] j ≠ toChar 354) ∧
      ft_strchr [97, 98, 99, 98] 0 = some (ft_strlen [97, 98, 99, 98]) ∧
      ft_strchr [97, 98, 99, 98] 122 = none :=
  ⟨(C20_ft_strchr [97, 98, 99, 98] 354).1 ⟨1, by decide, by decide⟩,
    (C20_ft_strchr [97, 98, 99, 98] 0).2.1 (by decide) (by decide),
    (C20_ft_strchr [97, 98, 99, 98] 122).2.2 (by decide) (by decide)⟩

end GetNextLine
